import Mathlib

/-!
Verification of the PathNavigator repository's natural-language specification
against a shallow embedding of its Python sources.

Conventions of the embedding:
* Python strings are modelled as `List Char` (named `Str` below) with ASCII
  character classes; `str.isidentifier`, the regex `\W` of `re.sub`, and
  `keyword.iskeyword` are embedded over that alphabet.
* Python dicts are association lists with dict semantics: an insert replaces
  the value of an existing key in place, otherwise appends at the end, so
  iteration order is insertion order.
* Fallible code (`raise`) is an `Except PNErr` result.
* The filesystem is a value passed explicitly: `FS` is the list of existing
  paths for the mutation operations, and an inductive entry tree `FSE` is the
  input of the directory walks.
-/

namespace PathNav

/-- Python strings, as lists of characters. -/
abbrev Str := List Char

instance instDecEqExceptPN {ε α : Type} [DecidableEq ε] [DecidableEq α] :
    DecidableEq (Except ε α)
  | .error e, .error f =>
    if h : e = f then isTrue (by rw [h])
    else isFalse (fun c => h (Except.error.inj c))
  | .error _, .ok _ => isFalse (fun c => Except.noConfusion c)
  | .ok _, .error _ => isFalse (fun c => Except.noConfusion c)
  | .ok a, .ok b =>
    if h : a = b then isTrue (by rw [h])
    else isFalse (fun c => h (Except.ok.inj c))

/-- Errors raised by the embedded code: `ValueError` for the reserved
`_pn_` naming violation, `AttributeError` for shortcut collisions and missing
attributes, `FileNotFoundError` for filesystem removal of a missing entry. -/
inductive PNErr where
  | namingViolation
  | attributeError
  | fileNotFound
  deriving DecidableEq, Repr

/-- ASCII word character: letter, digit or underscore (the complement of the
regex class `\W` of `re.sub` in `att_name_convertor.py`). -/
def isWordChar (c : Char) : Bool :=
  c.isAlpha || c.isDigit || c = '_'

/-- The Python 3 keyword list consulted by `keyword.iskeyword`. -/
def pyKeywords : List Str :=
  [['F','a','l','s','e'], ['N','o','n','e'], ['T','r','u','e'],
   ['a','n','d'], ['a','s'], ['a','s','s','e','r','t'],
   ['a','s','y','n','c'], ['a','w','a','i','t'], ['b','r','e','a','k'],
   ['c','l','a','s','s'], ['c','o','n','t','i','n','u','e'],
   ['d','e','f'], ['d','e','l'], ['e','l','i','f'], ['e','l','s','e'],
   ['e','x','c','e','p','t'], ['f','i','n','a','l','l','y'],
   ['f','o','r'], ['f','r','o','m'], ['g','l','o','b','a','l'],
   ['i','f'], ['i','m','p','o','r','t'], ['i','n'], ['i','s'],
   ['l','a','m','b','d','a'], ['n','o','n','l','o','c','a','l'],
   ['n','o','t'], ['o','r'], ['p','a','s','s'], ['r','a','i','s','e'],
   ['r','e','t','u','r','n'], ['t','r','y'], ['w','h','i','l','e'],
   ['w','i','t','h'], ['y','i','e','l','d']]

/-- Embedding of `keyword.iskeyword`. -/
def isKeywordStr (n : Str) : Bool :=
  pyKeywords.any (fun w => w = n)

/-- Embedding of `str.isidentifier` over the ASCII alphabet: nonempty, the
first character is a letter or underscore, the rest are word characters. -/
def isIdentStr (n : Str) : Bool :=
  match n with
  | [] => false
  | c :: cs => (c.isAlpha || c = '_') && cs.all isWordChar

/-- The reserved `_pn_` marker. -/
def pnMark : Str := ['_','p','n','_']

/-- Embedding of `str.startswith` as a Boolean check. -/
def startsWithStr (pat s : Str) : Bool :=
  pat.isPrefixOf s

/-- Default reserved-method-name set of `AttributeNameConverter`
(`att_name_convertor.py`, `invalid_list` default of
`_pn_is_valid_attribute_name`). -/
def nodeInvalidList : List Str :=
  [['s','c'], ['r','e','l','o','a','d'], ['d','i','r'], ['l','s'],
   ['r','e','m','o','v','e'], ['j','o','i','n'], ['g','e','t'],
   ['m','k','d','i','r'],
   ['s','e','t','_','s','h','o','r','t','c','u','t'],
   ['c','h','d','i','r'],
   ['a','d','d','_','t','o','_','s','y','s','_','p','a','t','h'],
   ['n','a','m','e'], ['p','a','r','e','n','t','_','p','a','t','h'],
   ['s','u','b','f','o','l','d','e','r','s'],
   ['f','i','l','e','s']]

/-- Reserved-method-name set of the shortcut registry
(`shortcut.py`, `_pn_invalid_name_list`). -/
def shortcutInvalidList : List Str :=
  [['a','d','d'], ['r','e','m','o','v','e'], ['c','l','e','a','r'],
   ['l','s'], ['g','e','t'], ['g','e','t','_','s','t','r'],
   ['t','o','_','j','s','o','n'], ['t','o','_','y','a','m','l'],
   ['t','o','_','d','i','c','t'], ['l','o','a','d','_','d','i','c','t'],
   ['l','o','a','d','_','j','s','o','n'],
   ['l','o','a','d','_','y','a','m','l']]

/-- Boolean core of `AttributeNameConverter._pn_is_valid_attribute_name`,
parameterised by the reserved-method list of the owning component.  The
`_pn_` prefix check that raises `ValueError` is handled separately in
`toValidName`. -/
def isValidAttrB (inv : List Str) (n : Str) : Bool :=
  isIdentStr n && !isKeywordStr n && !inv.any (fun w => w = n)

/-- One step of `re.sub(r'\W|^(?=\d)', '_', name)`: every non-word character
becomes an underscore, and the zero-width match `^(?=\d)` inserts an
underscore in front of a leading digit. -/
def reSubStep (n : Str) : Str :=
  let mapped := n.map (fun c => if isWordChar c then c else '_')
  match n with
  | [] => mapped
  | c :: _ => if c.isDigit then '_' :: mapped else mapped

/-- The pure rewriting part of
`AttributeNameConverter._pn_convert_to_valid_attribute_name`: the `re.sub`
step, then an underscore is prepended whenever the result does not already
start with one, then a trailing underscore is appended when the result is a
Python keyword. -/
def convertPure (n : Str) : Str :=
  let v := reSubStep n
  let v := if startsWithStr ['_'] v then v else '_' :: v
  if isKeywordStr v then v ++ ['_'] else v

/-- Association-list lookup with dict semantics. -/
def lookupA {α : Type} : List (Str × α) → Str → Option α
  | [], _ => none
  | (k, v) :: rest, key => if k = key then some v else lookupA rest key

/-- Key-membership test of an association list. -/
def hasKeyA {α : Type} (m : List (Str × α)) (key : Str) : Bool :=
  m.any (fun kv => kv.1 = key)

/-- Dict insertion: replace the value of an existing key in place, otherwise
append at the end. -/
def insertA {α : Type} : List (Str × α) → Str → α → List (Str × α)
  | [], key, v => [(key, v)]
  | (k, w) :: rest, key, v =>
    if k = key then (k, v) :: rest else (k, w) :: insertA rest key v

/-- Dict deletion (`del m[key]`): removes the first entry with the key. -/
def eraseA {α : Type} : List (Str × α) → Str → List (Str × α)
  | [], _ => []
  | (k, w) :: rest, key =>
    if k = key then rest else (k, w) :: eraseA rest key

/-- State of `AttributeNameConverter`: the original-to-canonical map
`_pn_org_to_valid_name` and the canonical-to-original map
`_pn_valid_name_to_org`. -/
structure Converter where
  o2v : List (Str × Str)
  v2o : List (Str × Str)
  deriving DecidableEq, Repr

/-- A freshly constructed `AttributeNameConverter` (both maps empty). -/
def freshConv : Converter := ⟨[], []⟩

/-- The recording step at the end of
`_pn_convert_to_valid_attribute_name`: both maps are updated. -/
def convRecord (c : Converter) (org valid : Str) : Converter :=
  ⟨insertA c.o2v org valid, insertA c.v2o valid org⟩

/-- Embedding of `AttributeNameConverter.to_valid_name`, including the
`ValueError` raised by `_pn_is_valid_attribute_name` on names using the
reserved `_pn_` namespace: a valid name passes through unchanged and
unrecorded, an invalid one is rewritten by `convertPure` and the pair is
recorded in both maps. -/
def toValidName (inv : List Str) (c : Converter) (n : Str) :
    Except PNErr (Str × Converter) :=
  if startsWithStr pnMark n then .error .namingViolation
  else if isValidAttrB inv n then .ok (n, c)
  else .ok (convertPure n, convRecord c n (convertPure n))

/-- The name `to_valid_name` returns, viewed as a pure function of the input
(the converter state never influences the returned string). -/
def toValidPure (inv : List Str) (n : Str) : Str :=
  if isValidAttrB inv n then n else convertPure n

/-- Embedding of `AttributeNameConverter.get`: return the recorded original
name of a canonical key, or the key itself when nothing is recorded. -/
def converterGet (c : Converter) (n : Str) : Str :=
  match lookupA c.v2o n with
  | some org => org
  | none => n

/-- Running a sequence of `to_valid_name` calls on one converter instance,
starting from the given state; a raising call leaves the state unchanged. -/
def runNamesFrom (inv : List Str) (c : Converter) (ns : List Str) : Converter :=
  ns.foldl (fun st n =>
    match toValidName inv st n with
    | .ok p => p.2
    | .error _ => st) c

/-- Running a sequence of `to_valid_name` calls on a fresh converter. -/
def runNames (inv : List Str) (ns : List Str) : Converter :=
  runNamesFrom inv freshConv ns

/-- Recursive character-by-character replacement used to state the amended
C1 algorithm in the spec's own style. -/
def amdCharMap : Str → Str
  | [] => []
  | c :: cs => (if isWordChar c then c else '_') :: amdCharMap cs

/-- The rewriting algorithm exactly as claim C1 states it (its words, not
the code): non-word characters become underscores, a leading underscore is
prepended only when the name begins with a digit, and a trailing underscore
is appended only when the result is a reserved word. -/
def specAlgC1 (n : Str) : Str :=
  let v := amdCharMap n
  let v := match n with
    | c :: _ => if c.isDigit then '_' :: v else v
    | [] => v
  if isKeywordStr v then v ++ ['_'] else v

/-- The rewriting algorithm as amended for claim C1: after the non-word
replacement and the leading-digit underscore, an underscore is additionally
prepended whenever the result does not already begin with one; the reserved
word check then appends a trailing underscore (vacuously, after the
prepend). -/
def amendedAlgC1 (n : Str) : Str :=
  let v := amdCharMap n
  let v := match n with
    | c :: _ => if c.isDigit then '_' :: v else v
    | [] => v
  let v := if startsWithStr ['_'] v then v else '_' :: v
  if isKeywordStr v then v ++ ['_'] else v

/-- The invariant that actually holds of the two converter maps: every
original-to-canonical entry stores the deterministic rewrite of its original,
and the canonical-to-original map is a one-sided inverse (each of its entries
has a matching original-to-canonical entry; the converse fails). -/
def ConvInvariant (c : Converter) : Prop :=
  (∀ o k, lookupA c.o2v o = some k → k = convertPure o) ∧
  (∀ k o, lookupA c.v2o k = some o → lookupA c.o2v o = some k)

/-! ### Path objects

`pathlib.Path` values are modelled by their parsed form: the number of
leading slashes the POSIX flavour keeps (0, 1 for `/`, 2 for the special
`//` root; three or more collapse to 1) and the list of path components,
with empty and `"."` components dropped.  `parsePath` is the constructor
`Path(string)`, `renderPath` is `str(path)`. -/

/-- The path separator. -/
def slash : Char := '/'

/-- Helper of `splitOnChar`: the first group and the remaining groups. -/
def splitOnCharNE (sep : Char) : Str → Str × List Str
  | [] => ([], [])
  | c :: cs =>
    let r := splitOnCharNE sep cs
    if c = sep then ([], r.1 :: r.2) else (c :: r.1, r.2)

/-- Split a character list on a separator (the groups between separators,
like `str.split`). -/
def splitOnChar (sep : Char) (s : Str) : List Str :=
  (splitOnCharNE sep s).1 :: (splitOnCharNE sep s).2

/-- Join groups with a separator (inverse of `splitOnChar` on separator-free
groups). -/
def joinSep (sep : Char) : List Str → Str
  | [] => []
  | [g] => g
  | g :: g2 :: gs => g ++ sep :: joinSep sep (g2 :: gs)

/-- Keep a path component: drop empty and `"."` components, as
`PurePosixPath` parsing does. -/
def partKeep (g : Str) : Bool :=
  !(g == ([] : Str)) && !(g == (['.'] : Str))

/-- A `pathlib` path object: leading-slash count of the root and the parsed
components. -/
structure PObj where
  rootSl : Nat
  parts : List Str
  deriving DecidableEq, Repr

/-- `Path(s)` for a string `s`. -/
def parsePath (s : Str) : PObj :=
  let root :=
    if startsWithStr [slash, slash, slash] s then 1
    else if startsWithStr [slash, slash] s then 2
    else if startsWithStr [slash] s then 1
    else 0
  ⟨root, (splitOnChar slash s).filter partKeep⟩

/-- `str(p)` for a path object `p`. -/
def renderPath (p : PObj) : Str :=
  match p.rootSl with
  | 0 =>
    match p.parts with
    | [] => ['.']
    | _ => joinSep slash p.parts
  | 1 => slash :: joinSep slash p.parts
  | 2 => slash :: slash :: joinSep slash p.parts
  | _ + 3 => joinSep slash p.parts

/-- Well-formedness maintained by every `pathlib` path object: the root is
0–2 slashes and each component is nonempty, not `"."`, and separator-free. -/
def wfPB (p : PObj) : Bool :=
  p.rootSl ≤ 2 &&
    p.parts.all (fun g => partKeep g && !(g.contains slash))

/-- A Python `str | Path` value, as received by the shortcut registry. -/
inductive PValue where
  | strV (s : Str)
  | pathV (p : PObj)
  deriving DecidableEq, Repr

/-- `Path(value)`: parse a string, pass a path object through. -/
def pyPath : PValue → PObj
  | .strV s => parsePath s
  | .pathV p => p

/-- `str(value)`: identity on strings, rendering on path objects (used by
`to_dict(to_str=True)`). -/
def pvStr : PValue → Str
  | .strV s => s
  | .pathV p => renderPath p

/-! ### The shortcut registry (`shortcut.py`)

The registry's `__dict__` holds the `_pn_converter` slot plus one attribute
per shortcut: the slot is modelled separately, `entries` is the rest of
`__dict__` in insertion order.  The slot normally holds the converter
object (`conv`); `__setattr__`'s `name == "_pn_converter"` special case can
overwrite it with a raw `str | Path` value, recorded in `clob` — from then
on the converter object is unreachable (`conv` is dead residue) and every
`self._pn_converter.<method>` call raises `AttributeError`. -/

/-- The reserved attribute name `"_pn_converter"`. -/
def pnConvKey : Str :=
  ['_','p','n','_','c','o','n','v','e','r','t','e','r']

/-- State of `Shortcut`: `clob = some v` means the `_pn_converter` slot was
overwritten with the raw value `v` and the converter object is lost. -/
structure SReg where
  conv : Converter
  entries : List (Str × PValue)
  clob : Option PValue
  deriving DecidableEq, Repr

/-- A freshly constructed `Shortcut` (empty converter, no shortcuts). -/
def freshReg : SReg := ⟨freshConv, [], none⟩

/-- Embedding of `Shortcut.__setattr__`: writing the reserved name
`_pn_converter` stores the raw value over the converter slot and returns at
once (no `Path` coercion, no collision check); otherwise fail with
`AttributeError` when the key exists and `overwrite` is false, else store
`Path(value)`. -/
def setattrSc (R : SReg) (name : Str) (v : PValue) (ow : Bool) :
    Except PNErr SReg :=
  if name = pnConvKey then .ok ⟨R.conv, R.entries, some v⟩
  else if hasKeyA R.entries name && !ow then .error .attributeError
  else .ok { R with entries := insertA R.entries name (.pathV (pyPath v)) }

/-- Embedding of `Shortcut.add`: read `self._pn_converter` (an
`AttributeError` when the slot holds a clobbered raw value), canonicalize
the name with it, then `__setattr__`.  The returned state is the registry
after the call even when it raises (the converter mutation of
`to_valid_name` survives a collision error). -/
def addSc (R : SReg) (name : Str) (v : PValue) (ow : Bool) :
    SReg × Except PNErr Unit :=
  match R.clob with
  | some _ => (R, .error .attributeError)
  | none =>
    match toValidName shortcutInvalidList R.conv name with
    | .error e => (R, .error e)
    | .ok (k, c') =>
      let R1 : SReg := ⟨c', R.entries, none⟩
      match setattrSc R1 k v ow with
      | .error e => (R1, .error e)
      | .ok R2 => (R2, .ok ())

/-- Modelled from the spec: `AttributeNameConverter.get_valid`, called by
`Shortcut.get`/`Shortcut.remove`, is absent from the sources under `src`
(only its callers appear); per the spec the accessors "resolve through the
registry's own NameCanonicalizer's reverse mapping first", so an original
name with a recorded canonical key resolves to that key and any other name
passes through. -/
def getValidM (c : Converter) (n : Str) : Str :=
  match lookupA c.o2v n with
  | some k => k
  | none => n

/-- Embedding of `Shortcut.get`: resolve the name through
`self._pn_converter.get_valid` (an `AttributeError` when the slot holds a
clobbered raw value), then `__getattr__` (which raises `AttributeError`
when missing). -/
def getSc (R : SReg) (name : Str) : Except PNErr PValue :=
  match R.clob with
  | some _ => .error .attributeError
  | none =>
    match lookupA R.entries (getValidM R.conv name) with
    | some v => .ok v
    | none => .error .attributeError

/-- Embedding of `Shortcut.to_dict(to_str=True)` (the shape written by
`to_json`/`to_yaml`): skip `_pn_`-prefixed attributes, key each survivor by
its recorded original name via `get_org`, render values as strings.  With a
clobbered converter slot, the first surviving attribute's `get_org` call
raises `AttributeError` (no survivors: the empty dict comes back). -/
def exportDict (R : SReg) : Except PNErr (List (Str × Str)) :=
  match R.clob with
  | none =>
    .ok ((R.entries.filter (fun kv => !(startsWithStr pnMark kv.1))).map
      (fun kv => (converterGet R.conv kv.1, pvStr kv.2)))
  | some _ =>
    if (R.entries.filter (fun kv => !(startsWithStr pnMark kv.1))).isEmpty
    then .ok [] else .error .attributeError

/-- Embedding of `Shortcut.load_dict`: for each pair, canonicalize the key
with `self._pn_converter` (an `AttributeError` when the slot holds a
clobbered raw value), then `add` the canonical name with `Path(path)`; a
raise aborts the rest. -/
def loadDict (R : SReg) (data : List (Str × Str)) (ow : Bool) :
    Except PNErr SReg :=
  match data with
  | [] => .ok R
  | (n, s) :: rest =>
    match R.clob with
    | some _ => .error .attributeError
    | none =>
      match toValidName shortcutInvalidList R.conv n with
      | .error e => .error e
      | .ok (k, c') =>
        match addSc ⟨c', R.entries, none⟩ k (.pathV (parsePath s)) ow with
        | (_, .error e) => Except.error e
        | (R2, .ok _) => loadDict R2 rest ow

/-- The (original name, stored path value) pairs a registry holds, reading
each key's original back through the converter. -/
def origPairs (R : SReg) : List (Str × PValue) :=
  R.entries.map (fun kv => (converterGet R.conv kv.1, kv.2))

/-- A sequence of `add` calls (overwrite false) from a starting registry;
`none` when any call raises. -/
def runAdds : SReg → List (Str × PValue) → Option SReg
  | R, [] => some R
  | R, (n, v) :: rest =>
    match addSc R n v false with
    | (R', .ok _) => runAdds R' rest
    | (_, .error _) => none

/-- The registry obtained by adding the shortcut "pn.x" (whose canonical key
"_pn_x" carries the reserved marker) to a fresh registry. -/
def c3Reg : SReg :=
  (addSc freshReg (['p','n','.','x'] : Str)
    (.pathV ⟨1, [['d','a','t','a']]⟩) false).1

/-- Well-formedness of a `str | Path` argument: a string is always fine, a
path object must be a real `pathlib` value. -/
def wfPVB : PValue → Bool
  | .strV _ => true
  | .pathV p => wfPB p

/-- Consistency of one stored shortcut key with the registry's converter:
either the canonical-to-original map records an original that is invalid,
accepted, and rewrites to this key, or nothing is recorded and the key is
itself a valid accepted name (it was stored by passthrough). -/
def EntryKeyOk (c : Converter) (k : Str) : Prop :=
  (∃ o, lookupA c.v2o k = some o ∧
    isValidAttrB shortcutInvalidList o = false ∧
    startsWithStr pnMark o = false ∧ convertPure o = k) ∨
  (lookupA c.v2o k = none ∧ isValidAttrB shortcutInvalidList k = true ∧
    startsWithStr pnMark k = false)

/-- Invariant of every registry reachable by successful `add` calls none of
which targeted the reserved `_pn_converter` slot: keys are distinct, stored
values are well-formed path objects, each key is converter-consistent,
every recorded canonical key has an entry, and the converter slot is
intact. -/
def RegInv (R : SReg) : Prop :=
  (R.entries.map Prod.fst).Nodup ∧
  (∀ kv ∈ R.entries, ∃ p, kv.2 = PValue.pathV p ∧ wfPB p = true) ∧
  (∀ kv ∈ R.entries, EntryKeyOk R.conv kv.1) ∧
  (∀ k o, lookupA R.conv.v2o k = some o → hasKeyA R.entries k = true) ∧
  R.clob = none

/-- The export shape of a list of entries under a given converter: original
names as keys, string-rendered values. -/
def expList (c : Converter) (ents : List (Str × PValue)) :
    List (Str × Str) :=
  ents.map (fun kv => (converterGet c kv.1, pvStr kv.2))

/-! ### The folder tree (`pathnavigator.py`)

A `Folder` node holds its raw name, its parent path, the `files` dict
(canonical key → absolute path) and the `subfolders` dict (canonical key →
child node).  To keep a single inductive type, the subfolder dict is encoded
as a chain inside the same type: `mnil`/`mcons key child rest` cells.  The
map operations (`lookupKey`, `insertKey`, `eraseKey`) give the chain the
same dict semantics as `insertA`/`lookupA`/`eraseA`. -/

/-- A folder node, or a cell of a subfolder map chain. -/
inductive Node where
  | mk (name parentPath : Str) (files : List (Str × Str)) (subs : Node)
  | mnil
  | mcons (key : Str) (child : Node) (rest : Node)
  deriving DecidableEq, Repr

/-- The raw folder name. -/
def nodeName : Node → Str
  | .mk n _ _ _ => n
  | _ => []

/-- The parent path. -/
def nodeParent : Node → Str
  | .mk _ p _ _ => p
  | _ => []

/-- The `files` dict. -/
def nodeFiles : Node → List (Str × Str)
  | .mk _ _ f _ => f
  | _ => []

/-- The `subfolders` dict chain. -/
def nodeSubs : Node → Node
  | .mk _ _ _ s => s
  | _ => .mnil

/-- Replace the `subfolders` dict of a node. -/
def setSubs : Node → Node → Node
  | .mk n p f _, s => .mk n p f s
  | x, _ => x

/-- Replace the `files` dict of a node. -/
def setFiles : Node → List (Str × Str) → Node
  | .mk n p _ s, f => .mk n p f s
  | x, _ => x

/-- Whether a value is an actual folder node. -/
def isMkB : Node → Bool
  | .mk _ _ _ _ => true
  | _ => false

/-- Lookup in a subfolder map chain. -/
def lookupKey : Node → Str → Option Node
  | .mcons k c rest, key => if k = key then some c else lookupKey rest key
  | _, _ => none

/-- Key-membership in a subfolder map chain. -/
def hasKeyNode (m : Node) (key : Str) : Bool :=
  (lookupKey m key).isSome

/-- Dict insertion into a subfolder map chain. -/
def insertKey : Node → Str → Node → Node
  | .mcons k c rest, key, v =>
    if k = key then .mcons k v rest else .mcons k c (insertKey rest key v)
  | _, key, v => .mcons key v .mnil

/-- Dict deletion from a subfolder map chain. -/
def eraseKey : Node → Str → Node
  | .mcons k c rest, key =>
    if k = key then rest else .mcons k c (eraseKey rest key)
  | m, _ => m

/-- Number of entries of a subfolder map chain. -/
def chainLen : Node → Nat
  | .mcons _ _ rest => 1 + chainLen rest
  | _ => 0

mutual

/-- Deep well-formedness: a folder node whose subfolder chain is a proper
chain of well-formed nodes. -/
def wfNode : Node → Bool
  | .mk _ _ _ subs => wfChain subs
  | _ => false

/-- Deep well-formedness of a subfolder map chain. -/
def wfChain : Node → Bool
  | .mnil => true
  | .mcons _ child rest => wfNode child && wfChain rest
  | .mk _ _ _ _ => false

end

/-- `os.path.join(dir, name)` (POSIX flavour, one component). -/
def pathJoin (dir n : Str) : Str := dir ++ slash :: n

/-- `Folder.dir()`: `os.path.join(parent_path, name)`. -/
def nodeDir (nd : Node) : Str := pathJoin (nodeParent nd) (nodeName nd)

/-- The filesystem as the list of existing entry paths. -/
abbrev FS := List Str

/-- Whether a path equals or lies below a root path. -/
def isUnderPath (root q : Str) : Bool :=
  q == root || startsWithStr (root ++ [slash]) q

/-- `os.remove(p)`: delete one file entry, `FileNotFoundError` if absent. -/
def fsRemoveFile (fs : FS) (p : Str) : Except PNErr FS :=
  if fs.contains p then .ok (fs.erase p) else .error .fileNotFound

/-- `shutil.rmtree(p)`: delete a directory entry and everything below it,
`FileNotFoundError` if the path does not exist. -/
def fsRmtree (fs : FS) (p : Str) : Except PNErr FS :=
  if fs.contains p then .ok (fs.filter (fun q => !(isUnderPath p q)))
  else .error .fileNotFound

/-- A directory's entries as seen by `os.scandir`, in enumeration order:
files and subdirectories (each with its own entries) interleaved. -/
inductive FSE where
  | nil
  | fileE (name : Str) (rest : FSE)
  | dirE (name : Str) (sub : FSE) (rest : FSE)
  deriving DecidableEq, Repr

/-- Embedding of `PathNavigator._pn_load_nested_directories`
(`pathnavigator.py` lines 685-706): for each directory entry canonicalize
the name, insert a fresh child node populated from the subtree; for each
file entry canonicalize the name and insert the entry path; a single
converter (the root's) serves the whole walk. -/
def walkEntries (inv : List Str) :
    Converter → Str → Node → FSE → Except PNErr (Converter × Node)
  | c, _, node, .nil => .ok (c, node)
  | c, curPath, node, .fileE n rest =>
    match toValidName inv c n with
    | .error e => .error e
    | .ok (valid, c1) =>
      walkEntries inv c1 curPath
        (setFiles node (insertA (nodeFiles node) valid (pathJoin curPath n)))
        rest
  | c, curPath, node, .dirE n sub rest =>
    match toValidName inv c n with
    | .error e => .error e
    | .ok (valid, c1) =>
      match walkEntries inv c1 (pathJoin curPath n)
          (Node.mk n curPath [] .mnil) sub with
      | .error e => .error e
      | .ok (c2, child) =>
        walkEntries inv c2 curPath
          (setSubs node (insertKey (nodeSubs node) valid child)) rest

/-- Whether a directory's immediate entries contain a file with this name. -/
def fseHasFile : FSE → Str → Bool
  | .nil, _ => false
  | .fileE n rest, f => n = f || fseHasFile rest f
  | .dirE _ _ rest, f => fseHasFile rest f

/-- Whether a directory's immediate entries contain a subdirectory with this
name. -/
def fseHasDir : FSE → Str → Bool
  | .nil, _ => false
  | .fileE _ rest, f => fseHasDir rest f
  | .dirE n _ rest, f => n = f || fseHasDir rest f

/-- Embedding of `Folder.remove` (`pathnavigator.py` lines 211-243):
canonicalize the name, read back the original, delete a tracked subfolder
(recursive filesystem delete, then `del subfolders[key]`) or a tracked file
(file delete, then `del files[key]`), and otherwise print a warning and
return normally. -/
def removeOp (inv : List Str) (c : Converter) (fs : FS) (node : Node)
    (name : Str) : Except PNErr (FS × Converter × Node) :=
  match toValidName inv c name with
  | .error e => .error e
  | .ok (valid, c1) =>
    match lookupKey (nodeSubs node) valid with
    | some _ =>
      match fsRmtree fs (pathJoin (nodeDir node) (converterGet c1 valid)) with
      | .error e => .error e
      | .ok fs' =>
        .ok (fs', c1, setSubs node (eraseKey (nodeSubs node) valid))
    | none =>
      match lookupA (nodeFiles node) valid with
      | some p =>
        match fsRemoveFile fs p with
        | .error e => .error e
        | .ok fs' =>
          .ok (fs', c1, setFiles node (eraseA (nodeFiles node) valid))
      | none => .ok (fs, c1, node)

/-- What claim C8 asserts of `remove`, relative to the canonical key `k` of
the given name and the converter state `c1` after canonicalization: an
untracked name is a warning-only no-op on maps and filesystem; a tracked
file is deleted from the filesystem and exactly its key removed from
`files`; a tracked subfolder is deleted recursively and exactly its key
removed from `subfolders`. -/
def RemoveSpec (inv : List Str) (c c1 : Converter) (fs : FS) (node : Node)
    (name k : Str) : Prop :=
  (lookupKey (nodeSubs node) k = none → lookupA (nodeFiles node) k = none →
    removeOp inv c fs node name = .ok (fs, c1, node)) ∧
  (∀ p, lookupKey (nodeSubs node) k = none →
    lookupA (nodeFiles node) k = some p → fs.contains p = true →
    removeOp inv c fs node name =
      .ok (fs.erase p, c1, setFiles node (eraseA (nodeFiles node) k))) ∧
  (∀ ch, lookupKey (nodeSubs node) k = some ch →
    fs.contains (pathJoin (nodeDir node) (converterGet c1 k)) = true →
    removeOp inv c fs node name =
      .ok (fs.filter (fun q =>
          !(isUnderPath (pathJoin (nodeDir node) (converterGet c1 k)) q)),
        c1, setSubs node (eraseKey (nodeSubs node) k)))

/-- The chain of absolute paths `dir/a1`, `dir/a1/a2`, … for a relative
component list. -/
def chainPaths (dir : Str) : List Str → List Str
  | [] => []
  | a :: rest => pathJoin dir a :: chainPaths (pathJoin dir a) rest

/-- Create one directory entry if missing. -/
def addPath (f : FS) (p : Str) : FS :=
  if f.contains p then f else f ++ [p]

/-- `os.makedirs(full_path, exist_ok=True)`: create every missing level of
the chain, never failing on existing ones. -/
def fsMakedirs (fs : FS) (dir : Str) (parts : List Str) : FS :=
  (chainPaths dir parts).foldl addPath fs

/-- The node `mkdir` descends into for a component: the tracked child if
the canonical key exists, a fresh `Folder(part, parent_path=cur.dir())`
otherwise. -/
def childOf (node : Node) (valid a : Str) : Node :=
  match lookupKey (nodeSubs node) valid with
  | some ch => ch
  | none => Node.mk a (nodeDir node) [] .mnil

/-- The in-memory loop of `Folder.mkdir`: for each path component,
canonicalize it, insert a fresh node if the key is untracked, and descend. -/
def mkdirLoop (inv : List Str) :
    Converter → Node → List Str → Except PNErr (Converter × Node)
  | c, node, [] => .ok (c, node)
  | c, node, a :: rest =>
    match toValidName inv c a with
    | .error e => .error e
    | .ok (valid, c1) =>
      match mkdirLoop inv c1 (childOf node valid a) rest with
      | .error e => .error e
      | .ok (c2, child') =>
        .ok (c2, setSubs node (insertKey (nodeSubs node) valid child'))

/-- Result of `mkdir`: the filesystem, the converter, the updated node and
the Python return value (`ret`). -/
structure MkdirOut where
  fs : FS
  conv : Converter
  node : Node
  ret : Option Node
  deriving DecidableEq, Repr

/-- `os.path.relpath(join(dir, *args), dir).split(os.sep)`: the component
list of the relative chain ("." when no components were given). -/
def relParts (args : List Str) : List Str :=
  if args.isEmpty then [['.']] else splitOnChar slash (joinSep slash args)

/-- Embedding of `Folder.mkdir` (`pathnavigator.py` lines 285-315): create
the chain on the filesystem with `os.makedirs(..., exist_ok=True)`, then
insert one node per relative path component; the Python function has no
return statement, so `ret` is `none`. -/
def mkdirOp (inv : List Str) (c : Converter) (fs : FS) (node : Node)
    (args : List Str) : Except PNErr MkdirOut :=
  match mkdirLoop inv c node (relParts args) with
  | .error e => .error e
  | .ok (c', node') =>
    .ok ⟨fsMakedirs fs (nodeDir node) (relParts args), c', node', none⟩

/-- Follow a list of canonical keys down the subfolder maps. -/
def followKeys : Node → List Str → Option Node
  | node, [] => some node
  | node, k :: ks =>
    match lookupKey (nodeSubs node) k with
    | some c => followKeys c ks
    | none => none

/-- A clean single path component: nonempty, separator-free, not in the
reserved `_pn_` namespace. -/
def okComponentB (a : Str) : Bool :=
  !(a == ([] : Str)) && !(a.contains slash) && !(startsWithStr pnMark a)

/-- All names of a directory tree are separator-free. -/
def wfFSE : FSE → Bool
  | .nil => true
  | .fileE n rest => !(n.contains slash) && wfFSE rest
  | .dirE n sub rest => !(n.contains slash) && wfFSE sub && wfFSE rest

/-! ### Bounded walk (claim C4)

Modelled from the spec: the `PathNavigator` construction variant that
accepts traversal bounds (`max_depth`, `max_files`, `max_folders`) and
include/exclude name filters is not present under `src` — only its caller
`create` in `__init__.py` is — so the bounded walk is modelled from the
spec's §4.3: the walk honors the bounds by pruning traversal below the depth
bound, capping per-directory file and subfolder counts, and skipping
non-matching entries during the walk itself. -/

/-- A per-directory counter is within an optional bound (`none` =
unbounded). -/
def okCount : Option Nat → Nat → Bool
  | none, _ => true
  | some m, n2 => n2 < m

/-- An entry count satisfies an optional bound. -/
def okLen : Option Nat → Nat → Bool
  | none, _ => true
  | some m, len => len ≤ m

/-- Modelled from the spec: an entry name is skipped when the exclude
pattern matches it, or an include pattern is given and does not match. -/
def skipName (inc exc : Option (Str → Bool)) (n : Str) : Bool :=
  (match exc with
    | some p => p n
    | none => false) ||
  (match inc with
    | some p => !(p n)
    | none => false)

/-- Decrement an optional depth budget. -/
def decrD : Option Nat → Option Nat
  | none => none
  | some d => some (d - 1)

/-- A depth budget admits children: unbounded, or still positive. -/
def depthFlag : Option Nat → Bool
  | some dd => decide (0 < dd)
  | none => true

/-- Modelled from the spec: the bounded walk over a directory's entries.
`nf`/`nd` count the files and subfolders already inserted into the current
node; a filtered-out entry is skipped, a full counter stops further inserts
of that kind, and a directory met with an exhausted depth budget is
pruned. -/
def walkBEntries (inv : List Str) (inc exc : Option (Str → Bool))
    (mf md : Option Nat) :
    Converter → Option Nat → Str → Node → Nat → Nat → FSE →
    Except PNErr (Converter × Node)
  | c, _, _, node, _, _, .nil => .ok (c, node)
  | c, d, path, node, nf, nd, .fileE n rest =>
    if skipName inc exc n then
      walkBEntries inv inc exc mf md c d path node nf nd rest
    else if okCount mf nf then
      match toValidName inv c n with
      | .error e => .error e
      | .ok (valid, c1) =>
        walkBEntries inv inc exc mf md c1 d path
          (setFiles node (insertA (nodeFiles node) valid (pathJoin path n)))
          (nf + 1) nd rest
    else walkBEntries inv inc exc mf md c d path node nf nd rest
  | c, d, path, node, nf, nd, .dirE n sub rest =>
    if skipName inc exc n then
      walkBEntries inv inc exc mf md c d path node nf nd rest
    else if okCount md nd then
      match d with
      | some 0 => walkBEntries inv inc exc mf md c d path node nf nd rest
      | _ =>
        match toValidName inv c n with
        | .error e => .error e
        | .ok (valid, c1) =>
          match walkBEntries inv inc exc mf md c1 (decrD d) (pathJoin path n)
              (Node.mk n path [] .mnil) 0 0 sub with
          | .error e => .error e
          | .ok (c2, child) =>
            walkBEntries inv inc exc mf md c2 d path
              (setSubs node (insertKey (nodeSubs node) valid child))
              nf (nd + 1) rest
    else walkBEntries inv inc exc mf md c d path node nf nd rest

/-- The last path component of an absolute path (the raw entry name). -/
def lastComponent (p : Str) : Str :=
  (p.reverse.takeWhile (fun c => c != slash)).reverse

mutual

/-- The produced tree honors the depth bound and the per-directory file and
subfolder caps. -/
def boundsOkN (d mf md : Option Nat) : Node → Bool
  | .mk _ _ files subs =>
    okLen mf files.length && okLen md (chainLen subs) &&
      boundsOkC d mf md subs
  | _ => false

/-- Chain form of `boundsOkN`: every child exists only under a positive
depth budget and itself honors the bounds one level deeper. -/
def boundsOkC (d mf md : Option Nat) : Node → Bool
  | .mnil => true
  | .mcons _ child rest =>
    depthFlag d && boundsOkN (decrD d) mf md child && boundsOkC d mf md rest
  | .mk _ _ _ _ => false

end

mutual

/-- Every tracked file and subfolder of the produced tree passed the
include/exclude filters (file names are read back from the stored paths). -/
def filterOkN (inc exc : Option (Str → Bool)) : Node → Bool
  | .mk _ _ files subs =>
    files.all (fun kv => !(skipName inc exc (lastComponent kv.2))) &&
      filterOkC inc exc subs
  | _ => false

/-- Chain form of `filterOkN`. -/
def filterOkC (inc exc : Option (Str → Bool)) : Node → Bool
  | .mnil => true
  | .mcons _ child rest =>
    !(skipName inc exc (nodeName child)) && filterOkN inc exc child &&
      filterOkC inc exc rest
  | .mk _ _ _ _ => false

end

/-- Directory entries exercising bounds and filters: files "a", "b", "c"
and a directory "d" holding a directory "e". -/
def c4Es : FSE :=
  .fileE (['a'] : Str)
    (.fileE (['b'] : Str)
      (.fileE (['c'] : Str)
        (.dirE (['d'] : Str) (.dirE (['e'] : Str) .nil .nil) .nil)))

/-- An exclude filter matching exactly the name "b". -/
def c4Exc : Option (Str → Bool) := some (fun n => n == (['b'] : Str))

/-- The root node the sample bounded walk starts from. -/
def c4Root : Node := Node.mk (['r'] : Str) ([] : Str) [] .mnil

/-- The sample bounded walk: no include filter, exclude "b", at most one
file and two subfolders per directory, depth budget one; "b" is filtered
out, "c" is dropped by the file cap, and "e" is pruned by the depth
bound. -/
def c4OutPair : Converter × Node :=
  (walkBEntries [] none c4Exc (some 1) (some 2) freshConv (some 1)
    (['/','r'] : Str) c4Root 0 0 c4Es).toOption.getD (freshConv, c4Root)

/-- Directory entries with a file "a.b" and a folder "a-b". -/
def c2Es : FSE :=
  .fileE (['a','.','b'] : Str) (.dirE (['a','-','b'] : Str) .nil .nil)

/-- The converter state after walking `c2Es`: both originals recorded under
the one canonical key "_a_b", which maps back to the latest one. -/
def c2OutConv : Converter :=
  ⟨[((['a','.','b'] : Str), (['_','a','_','b'] : Str)),
    ((['a','-','b'] : Str), (['_','a','_','b'] : Str))],
   [((['_','a','_','b'] : Str), (['a','-','b'] : Str))]⟩

/-- The node after walking `c2Es` from an empty root node "r": the key
"_a_b" is tracked in the files map and in the subfolders map at once. -/
def c2OutNode : Node :=
  .mk (['r'] : Str) ([] : Str)
    [((['_','a','_','b'] : Str), (['r',slash,'a','.','b'] : Str))]
    (.mcons (['_','a','_','b'] : Str)
      (.mk (['a','-','b'] : Str) (['r'] : Str) [] .mnil) .mnil)

/-- A concrete sequence of shortcut additions without reserved-marker keys:
"my folder" (rewritten to "_my_folder") and "proj" (already valid). -/
def c3Ops : List (Str × PValue) :=
  [((['m','y',' ','f','o','l','d','e','r'] : Str),
      .strV ([slash,'t','m','p'] : Str)),
   ((['p','r','o','j'] : Str), .pathV ⟨1, [['d','a','t','a']]⟩)]

/-- The registry built by `c3Ops`. -/
def c3RegW : SReg := (runAdds freshReg c3Ops).getD freshReg

/-! ## Theorems -/

theorem splitOnCharNE_cons (sep c : Char) (cs : Str) :
    splitOnCharNE sep (c :: cs) =
      if c = sep then
        ([], (splitOnCharNE sep cs).1 :: (splitOnCharNE sep cs).2)
      else (c :: (splitOnCharNE sep cs).1, (splitOnCharNE sep cs).2) := rfl

theorem splitOnCharNE_no_sep (sep : Char) (g : Str)
    (h : ∀ c ∈ g, c ≠ sep) : splitOnCharNE sep g = (g, []) := by
  induction g with
  | nil => rfl
  | cons c cs ih =>
    rw [splitOnCharNE_cons, ih (fun x hx => h x (List.mem_cons_of_mem c hx)),
      if_neg (h c (List.mem_cons_self c cs))]

theorem splitOnChar_no_sep (sep : Char) (g : Str)
    (h : ∀ c ∈ g, c ≠ sep) : splitOnChar sep g = [g] := by
  unfold splitOnChar
  rw [splitOnCharNE_no_sep sep g h]

theorem splitOnCharNE_append (sep : Char) (g t : Str)
    (hg : ∀ c ∈ g, c ≠ sep) :
    splitOnCharNE sep (g ++ sep :: t) =
      (g, (splitOnCharNE sep t).1 :: (splitOnCharNE sep t).2) := by
  induction g with
  | nil =>
    rw [List.nil_append, splitOnCharNE_cons, if_pos rfl]
  | cons c g' ih =>
    rw [List.cons_append, splitOnCharNE_cons,
      ih (fun x hx => hg x (List.mem_cons_of_mem c hx)),
      if_neg (hg c (List.mem_cons_self c g'))]

theorem splitOnChar_append (sep : Char) (g t : Str)
    (hg : ∀ c ∈ g, c ≠ sep) :
    splitOnChar sep (g ++ sep :: t) = g :: splitOnChar sep t := by
  unfold splitOnChar
  rw [splitOnCharNE_append sep g t hg]

theorem splitOnChar_cons_sep (sep : Char) (t : Str) :
    splitOnChar sep (sep :: t) = [] :: splitOnChar sep t := by
  unfold splitOnChar
  rw [splitOnCharNE_cons, if_pos rfl]

theorem joinSep_split (sep : Char) :
    ∀ gs : List Str, gs ≠ [] → (∀ g ∈ gs, ∀ c ∈ g, c ≠ sep) →
    splitOnChar sep (joinSep sep gs) = gs := by
  intro gs
  induction gs with
  | nil => intro h; exact absurd rfl h
  | cons g rest ih =>
    intro _ hsep
    cases rest with
    | nil =>
      exact splitOnChar_no_sep sep g (hsep g (List.mem_cons_self g []))
    | cons g2 rest2 =>
      show splitOnChar sep (g ++ sep :: joinSep sep (g2 :: rest2)) = _
      rw [splitOnChar_append sep g _ (hsep g (List.mem_cons_self g _)),
        ih (by simp) (fun x hx c hc => hsep x (List.mem_cons_of_mem g hx) c hc)]

theorem joinSep_head_ne (sep : Char) (g : Str) (gs : List Str)
    (hg : ∀ c ∈ g, c ≠ sep) (hne : g ≠ []) :
    ∃ c t, joinSep sep (g :: gs) = c :: t ∧ c ≠ sep := by
  cases g with
  | nil => exact absurd rfl hne
  | cons c g' =>
    cases gs with
    | nil => exact ⟨c, g', rfl, hg c (List.mem_cons_self c g')⟩
    | cons g2 rest =>
      exact ⟨c, g' ++ sep :: joinSep sep (g2 :: rest), rfl,
        hg c (List.mem_cons_self c g')⟩

theorem contains_false_iff (g : Str) (c0 : Char) :
    g.contains c0 = false ↔ ∀ c ∈ g, c ≠ c0 := by
  induction g with
  | nil => simp
  | cons c cs ih =>
    simp only [List.contains_cons, Bool.or_eq_false_iff, beq_eq_false_iff_ne,
      List.mem_cons, ne_eq]
    constructor
    · rintro ⟨h1, h2⟩ x hx
      rcases hx with hx | hx
      · subst hx
        exact fun he => h1 he.symm
      · exact (ih.mp h2) x hx
    · intro h
      refine ⟨fun he => h c (Or.inl rfl) he.symm, ?_⟩
      exact ih.mpr (fun x hx => h x (Or.inr hx))

theorem splitOnCharNE_groups (sep : Char) (s : Str) :
    (∀ c ∈ (splitOnCharNE sep s).1, c ≠ sep) ∧
      (∀ g ∈ (splitOnCharNE sep s).2, ∀ c ∈ g, c ≠ sep) := by
  induction s with
  | nil => exact ⟨by simp [splitOnCharNE], by simp [splitOnCharNE]⟩
  | cons c cs ih =>
    have hstep : splitOnCharNE sep (c :: cs) =
        if c = sep then
          ([], (splitOnCharNE sep cs).1 :: (splitOnCharNE sep cs).2)
        else (c :: (splitOnCharNE sep cs).1, (splitOnCharNE sep cs).2) := rfl
    by_cases hc : c = sep
    · rw [hstep, if_pos hc]
      refine ⟨by simp, ?_⟩
      intro g hg
      rcases List.mem_cons.mp hg with hg | hg
      · subst hg
        exact ih.1
      · exact ih.2 g hg
    · rw [hstep, if_neg hc]
      refine ⟨?_, ih.2⟩
      intro x hx
      rcases List.mem_cons.mp hx with hx | hx
      · subst hx
        exact hc
      · exact ih.1 x hx

theorem splitOnChar_groups (sep : Char) (s g : Str)
    (hg : g ∈ splitOnChar sep s) : ∀ c ∈ g, c ≠ sep := by
  have h := splitOnCharNE_groups sep s
  unfold splitOnChar at hg
  rcases List.mem_cons.mp hg with hg | hg
  · subst hg
    exact h.1
  · exact h.2 g hg

theorem filter_partKeep_drop_nil (l : List Str) :
    List.filter partKeep ([] :: l) = List.filter partKeep l := by
  rw [List.filter_cons]
  simp [partKeep]

theorem parsePath_wf (s : Str) : wfPB (parsePath s) = true := by
  unfold wfPB parsePath
  simp only [Bool.and_eq_true, decide_eq_true_eq, List.all_eq_true]
  constructor
  · by_cases h1 : startsWithStr [slash, slash, slash] s = true
    · simp [h1]
    · by_cases h2 : startsWithStr [slash, slash] s = true
      · simp [h1, h2]
      · by_cases h3 : startsWithStr [slash] s = true <;> simp [h1, h2, h3]
  · intro g hg
    have hmem := List.mem_of_mem_filter hg
    have hkeep := List.of_mem_filter hg
    refine ⟨hkeep, ?_⟩
    simp only [Bool.not_eq_true', contains_false_iff]
    exact splitOnChar_groups slash s g hmem

theorem renderPath_roundtrip (p : PObj) (h : wfPB p = true) :
    parsePath (renderPath p) = p := by
  obtain ⟨r, parts⟩ := p
  unfold wfPB at h
  simp only [Bool.and_eq_true, decide_eq_true_eq, List.all_eq_true] at h
  obtain ⟨hr, hparts⟩ := h
  have hnosep : ∀ g ∈ parts, ∀ c ∈ g, c ≠ slash := by
    intro g hg
    have := (hparts g hg).2
    simp only [Bool.not_eq_true'] at this
    exact (contains_false_iff g slash).mp this
  have hkeepall : ∀ g ∈ parts, partKeep g = true :=
    fun g hg => (hparts g hg).1
  have hnonempty : ∀ g ∈ parts, g ≠ [] := by
    intro g hg
    have := hkeepall g hg
    unfold partKeep at this
    simp only [Bool.and_eq_true, Bool.not_eq_true', beq_eq_false_iff_ne,
      ne_eq] at this
    exact this.1
  interval_cases r
  · cases parts with
    | nil => decide
    | cons g gs =>
      obtain ⟨c, t, hjoin, hc⟩ := joinSep_head_ne slash g gs
        (hnosep g (List.mem_cons_self g gs))
        (hnonempty g (List.mem_cons_self g gs))
      show parsePath (joinSep slash (g :: gs)) = _
      unfold parsePath
      rw [hjoin]
      have hsw : ∀ t2 : Str,
          startsWithStr (slash :: t2) (c :: t) = false := by
        intro t2
        simp [startsWithStr, List.isPrefixOf]
        intro hcc
        exact absurd hcc.symm hc
      rw [hsw, hsw, hsw]
      simp only [if_false]
      rw [← hjoin, joinSep_split slash (g :: gs) (by simp) hnosep,
        List.filter_eq_self.mpr hkeepall]
      rfl
  · cases parts with
    | nil => decide
    | cons g gs =>
      obtain ⟨c, t, hjoin, hc⟩ := joinSep_head_ne slash g gs
        (hnosep g (List.mem_cons_self g gs))
        (hnonempty g (List.mem_cons_self g gs))
      show parsePath (slash :: joinSep slash (g :: gs)) = _
      unfold parsePath
      rw [hjoin]
      have h3 : startsWithStr [slash, slash, slash]
          (slash :: c :: t) = false := by
        simp [startsWithStr, List.isPrefixOf]
        intro hcc
        exact absurd hcc.symm hc
      have h2 : startsWithStr [slash, slash] (slash :: c :: t) = false := by
        simp [startsWithStr, List.isPrefixOf]
        intro hcc
        exact absurd hcc.symm hc
      have h1 : startsWithStr [slash] (slash :: c :: t) = true := by
        simp [startsWithStr, List.isPrefixOf]
      rw [h3, h2, h1]
      simp only [if_false, if_true]
      rw [show (slash :: c :: t : Str) = slash :: (c :: t) from rfl,
        splitOnChar_cons_sep, ← hjoin,
        joinSep_split slash (g :: gs) (by simp) hnosep,
        filter_partKeep_drop_nil, List.filter_eq_self.mpr hkeepall]
      rfl
  · cases parts with
    | nil => decide
    | cons g gs =>
      obtain ⟨c, t, hjoin, hc⟩ := joinSep_head_ne slash g gs
        (hnosep g (List.mem_cons_self g gs))
        (hnonempty g (List.mem_cons_self g gs))
      show parsePath (slash :: slash :: joinSep slash (g :: gs)) = _
      unfold parsePath
      rw [hjoin]
      have h3 : startsWithStr [slash, slash, slash]
          (slash :: slash :: c :: t) = false := by
        simp [startsWithStr, List.isPrefixOf]
        intro hcc
        exact absurd hcc.symm hc
      have h2 : startsWithStr [slash, slash]
          (slash :: slash :: c :: t) = true := by
        simp [startsWithStr, List.isPrefixOf]
      rw [h3, h2]
      simp only [if_false, if_true]
      rw [show (slash :: slash :: c :: t : Str)
          = slash :: (slash :: (c :: t)) from rfl,
        splitOnChar_cons_sep, splitOnChar_cons_sep, ← hjoin,
        joinSep_split slash (g :: gs) (by simp) hnosep,
        filter_partKeep_drop_nil, filter_partKeep_drop_nil,
        List.filter_eq_self.mpr hkeepall]
      rfl

theorem lookupA_insertA_self {α : Type} (m : List (Str × α)) (k : Str) (v : α) :
    lookupA (insertA m k v) k = some v := by
  induction m with
  | nil => simp [insertA, lookupA]
  | cons kv rest ih =>
    obtain ⟨k0, v0⟩ := kv
    by_cases h : k0 = k
    · simp [insertA, h, lookupA]
    · simp [insertA, h, lookupA, ih]

theorem lookupA_insertA_ne {α : Type} (m : List (Str × α)) (k key : Str) (v : α)
    (h : k ≠ key) : lookupA (insertA m k v) key = lookupA m key := by
  induction m with
  | nil => simp [insertA, lookupA, h]
  | cons kv rest ih =>
    obtain ⟨k0, v0⟩ := kv
    by_cases h0 : k0 = k
    · subst h0
      simp [insertA, lookupA, h]
    · simp [insertA, h0, lookupA, ih]

theorem amdCharMap_eq_map (n : Str) :
    amdCharMap n = n.map (fun c => if isWordChar c then c else '_') := by
  induction n with
  | nil => rfl
  | cons c cs ih => simp [amdCharMap, ih]

theorem convertPure_eq_amendedAlgC1 (n : Str) :
    convertPure n = amendedAlgC1 n := by
  unfold convertPure amendedAlgC1 reSubStep
  rw [amdCharMap_eq_map]
  cases n <;> rfl

/-- C1 counterexample: the input name "a.b" is not a valid canonical name,
has no leading digit and rewrites to no reserved word, so the claimed
algorithm yields "a_b"; the code, however, yields "_a_b", because an
underscore is prepended whenever the rewritten result does not already begin
with one. -/
theorem c1_counterexample :
    isValidAttrB nodeInvalidList (['a','.','b'] : Str) = false ∧
    toValidPure nodeInvalidList (['a','.','b'] : Str) = ['_','a','_','b'] ∧
    specAlgC1 (['a','.','b'] : Str) = ['a','_','b'] ∧
    toValidPure nodeInvalidList (['a','.','b'] : Str) ≠
      specAlgC1 (['a','.','b'] : Str) := by
  decide

/-- C1 (amended): for every accepted name that is not already a valid
canonical name, `to_valid_name` rewrites it exactly by: replacing every
non-word character by an underscore, prepending an underscore for a leading
digit, additionally prepending an underscore whenever the result does not
already begin with one, and appending a trailing underscore when the result
is a reserved word; the original/canonical pair is recorded in both maps. -/
theorem c1_amended (inv : List Str) (c : Converter) (n : Str)
    (hpn : startsWithStr pnMark n = false)
    (hval : isValidAttrB inv n = false) :
    toValidName inv c n =
      .ok (amendedAlgC1 n, convRecord c n (amendedAlgC1 n)) := by
  unfold toValidName
  rw [hpn, hval]
  simp [convertPure_eq_amendedAlgC1]

/-- Witness for `c1_amended` at the concrete name "my folder". -/
theorem c1_amended_witness :
    toValidName nodeInvalidList freshConv
        (['m','y',' ','f','o','l','d','e','r'] : Str) =
      .ok (amendedAlgC1 (['m','y',' ','f','o','l','d','e','r'] : Str),
        convRecord freshConv (['m','y',' ','f','o','l','d','e','r'] : Str)
          (amendedAlgC1 (['m','y',' ','f','o','l','d','e','r'] : Str))) :=
  c1_amended nodeInvalidList freshConv _ (by decide) (by decide)

/-- C6 counterexample: convert "a.b" (recorded as "_a_b"); the valid name
"_a_b" is then accepted and passes through `to_canonical` unchanged, yet
`original_of` returns "a.b", not "_a_b" — although no other original name
has overwritten the key since "_a_b" was canonicalized. -/
theorem c6_counterexample :
    toValidName nodeInvalidList freshConv (['a','.','b'] : Str) =
      .ok (['_','a','_','b'],
        convRecord freshConv (['a','.','b'] : Str) (['_','a','_','b'] : Str)) ∧
    toValidName nodeInvalidList
        (convRecord freshConv (['a','.','b'] : Str) (['_','a','_','b'] : Str))
        (['_','a','_','b'] : Str) =
      .ok (['_','a','_','b'],
        convRecord freshConv (['a','.','b'] : Str) (['_','a','_','b'] : Str)) ∧
    converterGet
        (convRecord freshConv (['a','.','b'] : Str) (['_','a','_','b'] : Str))
        (['_','a','_','b'] : Str) = ['a','.','b'] ∧
    (['a','.','b'] : Str) ≠ ['_','a','_','b'] := by
  decide

/-- C6 (amended): for every accepted string s,
`original_of(to_canonical(s)) = s`, provided the canonical-to-original map
does not map the produced key to a different original name at lookup time
(a condition that a record made either before or after s's conversion can
violate). -/
theorem c6_amended (inv : List Str) (c c' : Converter) (s k : Str)
    (hok : toValidName inv c s = .ok (k, c'))
    (hclean : ∀ o, lookupA c'.v2o k = some o → o = s) :
    converterGet c' k = s := by
  unfold toValidName at hok
  by_cases hpn : startsWithStr pnMark s
  · simp [hpn] at hok
  · by_cases hval : isValidAttrB inv s
    · simp [hpn, hval] at hok
      obtain ⟨hk, hc⟩ := hok
      subst hk
      subst hc
      unfold converterGet
      cases hl : lookupA c.v2o s with
      | none => rfl
      | some o => exact hclean o hl
    · simp [hpn, hval] at hok
      obtain ⟨hk, hc⟩ := hok
      subst hk
      subst hc
      unfold converterGet convRecord
      rw [lookupA_insertA_self]

/-- Witness for `c6_amended`: converting "a.b" on a fresh converter and
reading the original back through `original_of`. -/
theorem c6_amended_witness :
    converterGet
        (convRecord freshConv (['a','.','b'] : Str) (['_','a','_','b'] : Str))
        (['_','a','_','b'] : Str) = ['a','.','b'] := by
  refine c6_amended nodeInvalidList freshConv _ (['a','.','b'] : Str)
    (['_','a','_','b'] : Str) (by decide) ?_
  intro o h
  have hv : lookupA
      (convRecord freshConv (['a','.','b'] : Str)
        (['_','a','_','b'] : Str)).v2o (['_','a','_','b'] : Str) =
      some (['a','.','b'] : Str) := by decide
  exact (Option.some.inj (hv.symm.trans h)).symm

theorem convInvariant_step (inv : List Str) (c : Converter) (n : Str)
    (h : ConvInvariant c) :
    ConvInvariant
      (match toValidName inv c n with
        | .ok p => p.2
        | .error _ => c) := by
  unfold toValidName
  by_cases hpn : startsWithStr pnMark n
  · simpa [hpn] using h
  · by_cases hval : isValidAttrB inv n
    · simpa [hpn, hval] using h
    · simp only [hpn, hval, Bool.false_eq_true, if_false, if_true]
      obtain ⟨h1, h2⟩ := h
      constructor
      · intro o k hl
        simp only [convRecord] at hl
        by_cases ho : n = o
        · rw [← ho, lookupA_insertA_self] at hl
          rw [← ho]
          exact (Option.some.inj hl).symm
        · rw [lookupA_insertA_ne _ _ _ _ ho] at hl
          exact h1 o k hl
      · intro k o hl
        simp only [convRecord] at hl ⊢
        by_cases hk : convertPure n = k
        · rw [← hk, lookupA_insertA_self] at hl
          have ho : o = n := (Option.some.inj hl).symm
          rw [ho, ← hk, lookupA_insertA_self]
        · rw [lookupA_insertA_ne _ _ _ _ hk] at hl
          have hold := h2 k o hl
          by_cases ho : n = o
          · exact absurd ((congrArg convertPure ho).trans (h1 o k hold).symm) hk
          · rw [lookupA_insertA_ne _ _ _ _ ho]
            exact hold

theorem convInvariant_runFrom (inv : List Str) (ns : List Str) :
    ∀ c : Converter, ConvInvariant c → ConvInvariant (runNamesFrom inv c ns) := by
  induction ns with
  | nil => intro c h; exact h
  | cons n rest ih =>
    intro c h
    exact ih _ (convInvariant_step inv c n h)

/-- C7 counterexample: after converting "a.b" and then "a-b" (which both
rewrite to "_a_b"), the original-to-canonical map still holds the stale
entry "a.b" → "_a_b" while the canonical-to-original map holds
"_a_b" → "a-b": the previous mapping was overwritten in only one of the two
maps, so they are not inverses of each other. -/
theorem c7_counterexample :
    lookupA (runNames nodeInvalidList
        [['a','.','b'], ['a','-','b']]).o2v (['a','.','b'] : Str) =
      some (['_','a','_','b'] : Str) ∧
    lookupA (runNames nodeInvalidList
        [['a','.','b'], ['a','-','b']]).v2o (['_','a','_','b'] : Str) =
      some (['a','-','b'] : Str) ∧
    (['a','-','b'] : Str) ≠ ['a','.','b'] := by
  decide

/-- C7 (amended): after any sequence of `to_canonical` calls, every
canonical-to-original entry has a matching original-to-canonical entry (the
canonical-to-original map is a one-sided inverse), and a newly converted
original overwrites the canonical-to-original entry of its key (last write
wins); the earlier original's entry in the original-to-canonical map is not
removed, so the maps need not be full inverses. -/
theorem c7_amended (inv : List Str) (ns : List Str) :
    ConvInvariant (runNames inv ns) ∧
    (∀ (c' : Converter) (k n : Str), isValidAttrB inv n = false →
      toValidName inv (runNames inv ns) n = .ok (k, c') →
      lookupA c'.v2o k = some n) := by
  constructor
  · exact convInvariant_runFrom inv ns freshConv
      ⟨fun o k h => by simp [freshConv, lookupA] at h,
       fun k o h => by simp [freshConv, lookupA] at h⟩
  · intro c' k n hval hok
    unfold toValidName at hok
    by_cases hpn : startsWithStr pnMark n
    · simp [hpn] at hok
    · simp [hpn, hval] at hok
      obtain ⟨hk, hc⟩ := hok
      subst hk
      subst hc
      rw [show (convRecord (runNames inv ns) n (convertPure n)).v2o
          = insertA (runNames inv ns).v2o (convertPure n) n from rfl,
        lookupA_insertA_self]

/-- Witness for `c7_amended`: converting "a-b" after "a.b" makes the
canonical-to-original entry of "_a_b" point at "a-b". -/
theorem c7_amended_witness :
    lookupA (convRecord (runNames nodeInvalidList [['a','.','b']])
        (['a','-','b'] : Str) (['_','a','_','b'] : Str)).v2o
      (['_','a','_','b'] : Str) = some (['a','-','b'] : Str) :=
  (c7_amended nodeInvalidList [['a','.','b']]).2 _ _ _ (by decide) (by decide)

/-- C5: on a fresh registry, `add("my folder", path)` succeeds and
`get("my folder")` returns the path; a second `add` of the same name without
overwrite fails with the collision `AttributeError` and leaves the stored
entry unchanged; the same `add` with overwrite succeeds, after which `get`
returns the other path. -/
theorem toValidName_ok_cases (inv : List Str) (c : Converter) (n k : Str)
    (c' : Converter) (h : toValidName inv c n = .ok (k, c')) :
    startsWithStr pnMark n = false ∧
    ((isValidAttrB inv n = true ∧ k = n ∧ c' = c) ∨
     (isValidAttrB inv n = false ∧ k = convertPure n ∧
       c' = convRecord c n (convertPure n))) ∧
    k = toValidPure inv n := by
  unfold toValidName at h
  by_cases hpn : startsWithStr pnMark n
  · simp [hpn] at h
  · by_cases hval : isValidAttrB inv n
    · simp only [hpn, hval, Bool.false_eq_true, if_false, if_true] at h
      obtain ⟨hk, hc⟩ := Prod.mk.inj (Except.ok.inj h)
      refine ⟨by simpa using hpn, Or.inl ⟨hval, hk.symm, hc.symm⟩, ?_⟩
      rw [← hk]
      simp [toValidPure, hval]
    · simp only [hpn, hval, Bool.false_eq_true, if_false, if_true] at h
      obtain ⟨hk, hc⟩ := Prod.mk.inj (Except.ok.inj h)
      exact ⟨by simpa using hpn,
        Or.inr ⟨by simpa using hval, hk.symm, hc.symm⟩,
        by simp [toValidPure, hval, hk]⟩

theorem pnConvKey_pn : startsWithStr pnMark pnConvKey = true := rfl

theorem ne_pnConvKey (k : Str)
    (h : startsWithStr pnMark k = false) : k ≠ pnConvKey := by
  intro he
  rw [he, pnConvKey_pn] at h
  exact Bool.true_eq_false.mp h

theorem getSc_none (R : SReg) (name : Str) (h : R.clob = none) :
    getSc R name =
      (match lookupA R.entries (getValidM R.conv name) with
        | some v => .ok v
        | none => .error .attributeError) := by
  show (match R.clob with
    | some _ => Except.error PNErr.attributeError
    | none =>
      match lookupA R.entries (getValidM R.conv name) with
      | some v => Except.ok v
      | none => Except.error PNErr.attributeError) = _
  rw [h]

theorem addSc_ok_cases (R : SReg) (n : Str) (v : PValue) (ow : Bool)
    (R' : SReg) (h : addSc R n v ow = (R', .ok ())) :
    R.clob = none ∧
    ∃ c', toValidName shortcutInvalidList R.conv n =
        .ok (toValidPure shortcutInvalidList n, c') ∧
      ((toValidPure shortcutInvalidList n = pnConvKey ∧
          R' = ⟨c', R.entries, some v⟩) ∨
       (toValidPure shortcutInvalidList n ≠ pnConvKey ∧
          (hasKeyA R.entries (toValidPure shortcutInvalidList n) && !ow)
            = false ∧
          R' = ⟨c', insertA R.entries (toValidPure shortcutInvalidList n)
            (.pathV (pyPath v)), none⟩)) := by
  unfold addSc at h
  cases hclob : R.clob with
  | some w =>
    rw [hclob] at h
    simp only at h
    exact absurd (Prod.mk.inj h).2 (fun hc => Except.noConfusion hc)
  | none =>
    rw [hclob] at h
    simp only at h
    refine ⟨rfl, ?_⟩
    cases htv : toValidName shortcutInvalidList R.conv n with
    | error e =>
      rw [htv] at h
      exact absurd (Prod.mk.inj h).2 (fun hc => Except.noConfusion hc)
    | ok p =>
      obtain ⟨k, c'⟩ := p
      rw [htv] at h
      simp only at h
      unfold setattrSc at h
      have hk := (toValidName_ok_cases _ _ _ _ _ htv).2.2
      subst hk
      by_cases hkc : toValidPure shortcutInvalidList n = pnConvKey
      · rw [if_pos hkc] at h
        simp only at h
        exact ⟨c', rfl, Or.inl ⟨hkc, (Prod.mk.inj h).1.symm⟩⟩
      · rw [if_neg hkc] at h
        by_cases hcol : (hasKeyA R.entries
            (toValidPure shortcutInvalidList n) && !ow) = true
        · rw [if_pos hcol] at h
          simp only at h
          exact absurd (Prod.mk.inj h).2 (fun hc => Except.noConfusion hc)
        · rw [if_neg hcol] at h
          simp only at h
          exact ⟨c', rfl, Or.inr ⟨hkc, by simpa using hcol,
            (Prod.mk.inj h).1.symm⟩⟩

theorem addSc_ok_elim (R : SReg) (n : Str) (v : PValue) (ow : Bool)
    (R' : SReg) (hnc : toValidPure shortcutInvalidList n ≠ pnConvKey)
    (h : addSc R n v ow = (R', .ok ())) :
    ∃ c', toValidName shortcutInvalidList R.conv n =
        .ok (toValidPure shortcutInvalidList n, c') ∧
      (hasKeyA R.entries (toValidPure shortcutInvalidList n) && !ow) = false ∧
      R' = ⟨c', insertA R.entries (toValidPure shortcutInvalidList n)
        (.pathV (pyPath v)), none⟩ := by
  obtain ⟨_, c', htv, hcase⟩ := addSc_ok_cases R n v ow R' h
  rcases hcase with ⟨hkc, _⟩ | ⟨_, hcol, hR⟩
  · exact absurd hkc hnc
  · exact ⟨c', htv, hcol, hR⟩

/-- C10 counterexample: `add("pn.converter", "/tmp")` succeeds, but the name
canonicalizes to the reserved attribute name "_pn_converter" and
`__setattr__`'s special case stores the raw string over the converter slot —
no `Path` coercion, no collision check, no entry in the shortcut dict — so
the stored value is the raw string, not the path object `Path("/tmp")`. -/
theorem c10_counterexample :
    (addSc freshReg (['p','n','.','c','o','n','v','e','r','t','e','r'] : Str)
      (.strV ([slash,'t','m','p'] : Str)) false).2 = .ok () ∧
    (addSc freshReg (['p','n','.','c','o','n','v','e','r','t','e','r'] : Str)
      (.strV ([slash,'t','m','p'] : Str)) false).1.clob =
      some (.strV ([slash,'t','m','p'] : Str)) ∧
    (addSc freshReg (['p','n','.','c','o','n','v','e','r','t','e','r'] : Str)
      (.strV ([slash,'t','m','p'] : Str)) false).1.entries = [] ∧
    PValue.strV ([slash,'t','m','p'] : Str) ≠
      PValue.pathV (pyPath (.strV ([slash,'t','m','p'] : Str))) := by
  decide

/-- C10 (amended): every value stored by a successful `add` or direct
`__setattr__` assignment under a canonical key other than the reserved
attribute name "_pn_converter" is coerced to `Path(value)` — the stored
entry is `Path(value)` and `get` on the added name returns `Path(value)`
(for a rewritten name via the recorded mapping, for an already-valid name
when no stale mapping shadows it), never the raw string; the single
exception is a write to "_pn_converter" (reachable via `add` on names like
"pn.converter"), which stores the raw value uncoerced over the converter
slot with no collision check. -/
theorem c10_amended :
    (∀ (R : SReg) (n : Str) (v : PValue) (ow : Bool) (R' : SReg),
      n ≠ pnConvKey →
      setattrSc R n v ow = .ok R' →
      lookupA R'.entries n = some (.pathV (pyPath v))) ∧
    (∀ (R : SReg) (v : PValue) (ow : Bool),
      setattrSc R pnConvKey v ow = .ok ⟨R.conv, R.entries, some v⟩) ∧
    (∀ (R : SReg) (n : Str) (v : PValue) (ow : Bool) (R' : SReg),
      toValidPure shortcutInvalidList n ≠ pnConvKey →
      addSc R n v ow = (R', .ok ()) →
      lookupA R'.entries (toValidPure shortcutInvalidList n) =
        some (.pathV (pyPath v))) ∧
    (∀ (R : SReg) (n : Str) (v : PValue) (ow : Bool) (R' : SReg),
      toValidPure shortcutInvalidList n ≠ pnConvKey →
      addSc R n v ow = (R', .ok ()) →
      isValidAttrB shortcutInvalidList n = false →
      getSc R' n = .ok (.pathV (pyPath v))) ∧
    (∀ (R : SReg) (n : Str) (v : PValue) (ow : Bool) (R' : SReg),
      toValidPure shortcutInvalidList n ≠ pnConvKey →
      addSc R n v ow = (R', .ok ()) →
      isValidAttrB shortcutInvalidList n = true →
      lookupA R.conv.o2v n = none →
      getSc R' n = .ok (.pathV (pyPath v))) := by
  refine ⟨?_, ?_, ?_, ?_, ?_⟩
  · intro R n v ow R' hnc h
    unfold setattrSc at h
    rw [if_neg hnc] at h
    by_cases hcol : (hasKeyA R.entries n && !ow) = true
    · rw [if_pos hcol] at h
      exact absurd h (fun hc => Except.noConfusion hc)
    · rw [if_neg hcol] at h
      rw [← Except.ok.inj h]
      exact lookupA_insertA_self _ _ _
  · intro R v ow
    unfold setattrSc
    rw [if_pos rfl]
  · intro R n v ow R' hnc h
    obtain ⟨c', _, _, hR⟩ := addSc_ok_elim R n v ow R' hnc h
    rw [hR]
    exact lookupA_insertA_self _ _ _
  · intro R n v ow R' hnc h hval
    obtain ⟨c', htv, _, hR⟩ := addSc_ok_elim R n v ow R' hnc h
    obtain ⟨hpn, hcases, hk⟩ := toValidName_ok_cases _ _ _ _ _ htv
    rcases hcases with ⟨hv, _, _⟩ | ⟨_, _, hc⟩
    · rw [hv] at hval
      exact absurd hval (by simp)
    · subst hc
      rw [hR, getSc_none _ _ rfl]
      have ho2v : lookupA (convRecord R.conv n (convertPure n)).o2v n =
          some (convertPure n) := lookupA_insertA_self _ _ _
      have hgv : getValidM (convRecord R.conv n (convertPure n)) n =
          convertPure n := by
        unfold getValidM
        rw [ho2v]
      have hkey : toValidPure shortcutInvalidList n = convertPure n := by
        simp [toValidPure, hval]
      rw [show (⟨convRecord R.conv n (convertPure n),
          insertA R.entries (toValidPure shortcutInvalidList n)
            (.pathV (pyPath v)), none⟩ : SReg).conv
          = convRecord R.conv n (convertPure n) from rfl,
        show (⟨convRecord R.conv n (convertPure n),
          insertA R.entries (toValidPure shortcutInvalidList n)
            (.pathV (pyPath v)), none⟩ : SReg).entries
          = insertA R.entries (toValidPure shortcutInvalidList n)
            (.pathV (pyPath v)) from rfl,
        hgv, ← hkey, lookupA_insertA_self]
  · intro R n v ow R' hnc h hval ho2v
    obtain ⟨c', htv, _, hR⟩ := addSc_ok_elim R n v ow R' hnc h
    obtain ⟨hpn, hcases, hk⟩ := toValidName_ok_cases _ _ _ _ _ htv
    rcases hcases with ⟨_, _, hc⟩ | ⟨hv, _, _⟩
    · subst hc
      rw [hR, getSc_none _ _ rfl]
      have hgv : getValidM R.conv n = n := by
        unfold getValidM
        rw [ho2v]
      have hkn : toValidPure shortcutInvalidList n = n := by
        simp [toValidPure, hval]
      rw [show (⟨R.conv, insertA R.entries
          (toValidPure shortcutInvalidList n) (.pathV (pyPath v)), none⟩ :
            SReg).conv = R.conv from rfl,
        show (⟨R.conv, insertA R.entries
          (toValidPure shortcutInvalidList n) (.pathV (pyPath v)), none⟩ :
            SReg).entries = insertA R.entries
              (toValidPure shortcutInvalidList n) (.pathV (pyPath v))
          from rfl,
        hgv, hkn, lookupA_insertA_self]
    · rw [hv] at hval
      exact absurd hval (by simp)

/-- Witness for `c10_amended`: adding "data dir" with a raw string value
stores and returns the parsed `Path` object, not the string. -/
theorem c10_amended_witness :
    getSc (addSc freshReg (['d','a','t','a',' ','d','i','r'] : Str)
        (.strV ([slash,'t','m','p'] : Str)) false).1
      (['d','a','t','a',' ','d','i','r'] : Str) =
    .ok (.pathV (pyPath (.strV ([slash,'t','m','p'] : Str)))) :=
  c10_amended.2.2.2.1 freshReg _ _ false _ (by decide) rfl (by decide)

/-- C3 counterexample: a registry holding the single shortcut "pn.x"
(canonical key "_pn_x") exports an empty mapping because `to_dict` skips
`_pn_`-prefixed attributes, so export followed by import on a fresh registry
yields no pairs instead of the original one. -/
theorem c3_counterexample :
    (addSc freshReg (['p','n','.','x'] : Str)
      (.pathV ⟨1, [['d','a','t','a']]⟩) false).2 = .ok () ∧
    origPairs c3Reg =
      [((['p','n','.','x'] : Str), .pathV ⟨1, [['d','a','t','a']]⟩)] ∧
    exportDict c3Reg = .ok [] ∧
    loadDict freshReg [] false = .ok freshReg ∧
    origPairs freshReg ≠ origPairs c3Reg := by
  decide

theorem c5_theorem (po qo : PObj) :
    (addSc freshReg (['m','y',' ','f','o','l','d','e','r'] : Str)
        (.pathV po) false).2 = .ok () ∧
    getSc (addSc freshReg (['m','y',' ','f','o','l','d','e','r'] : Str)
        (.pathV po) false).1
      (['m','y',' ','f','o','l','d','e','r'] : Str) = .ok (.pathV po) ∧
    (addSc (addSc freshReg (['m','y',' ','f','o','l','d','e','r'] : Str)
          (.pathV po) false).1
        (['m','y',' ','f','o','l','d','e','r'] : Str)
        (.pathV qo) false).2 = .error .attributeError ∧
    (addSc (addSc freshReg (['m','y',' ','f','o','l','d','e','r'] : Str)
          (.pathV po) false).1
        (['m','y',' ','f','o','l','d','e','r'] : Str)
        (.pathV qo) false).1.entries =
      (addSc freshReg (['m','y',' ','f','o','l','d','e','r'] : Str)
        (.pathV po) false).1.entries ∧
    (addSc (addSc freshReg (['m','y',' ','f','o','l','d','e','r'] : Str)
          (.pathV po) false).1
        (['m','y',' ','f','o','l','d','e','r'] : Str)
        (.pathV qo) true).2 = .ok () ∧
    getSc (addSc (addSc freshReg (['m','y',' ','f','o','l','d','e','r'] : Str)
          (.pathV po) false).1
        (['m','y',' ','f','o','l','d','e','r'] : Str)
        (.pathV qo) true).1
      (['m','y',' ','f','o','l','d','e','r'] : Str) = .ok (.pathV qo) :=
  ⟨rfl, rfl, rfl, rfl, rfl, rfl⟩

theorem reSubStep_all_word (n : Str) :
    ∀ c ∈ reSubStep n, isWordChar c = true := by
  intro c hc
  unfold reSubStep at hc
  have hmap : ∀ x ∈ n.map (fun c => if isWordChar c then c else '_'),
      isWordChar x = true := by
    intro x hx
    obtain ⟨y, _, hy⟩ := List.mem_map.mp hx
    by_cases hw : isWordChar y = true
    · rw [← hy, if_pos hw]
      exact hw
    · rw [← hy, if_neg hw]
      rfl
  cases n with
  | nil => simp at hc
  | cons c0 cs =>
    simp only at hc
    by_cases hd : c0.isDigit = true
    · rw [if_pos hd] at hc
      rcases List.mem_cons.mp hc with hc | hc
      · rw [hc]; rfl
      · exact hmap c hc
    · rw [if_neg hd] at hc
      exact hmap c hc

theorem convertPure_shape (n : Str) :
    ∃ t, convertPure n = '_' :: t ∧ ∀ c ∈ t, isWordChar c = true := by
  have hdef : convertPure n =
      (if isKeywordStr (if startsWithStr ['_'] (reSubStep n) then reSubStep n
          else '_' :: reSubStep n) = true then
        (if startsWithStr ['_'] (reSubStep n) then reSubStep n
          else '_' :: reSubStep n) ++ ['_']
      else (if startsWithStr ['_'] (reSubStep n) then reSubStep n
          else '_' :: reSubStep n)) := rfl
  rw [hdef]
  have hword := reSubStep_all_word n
  have hshape : ∃ t0,
      (if startsWithStr ['_'] (reSubStep n) then reSubStep n
        else '_' :: reSubStep n) = '_' :: t0 ∧
      ∀ c ∈ t0, isWordChar c = true := by
    by_cases hsw : startsWithStr ['_'] (reSubStep n) = true
    · rw [if_pos hsw]
      cases hr : reSubStep n with
      | nil =>
        rw [hr] at hsw
        simp [startsWithStr, List.isPrefixOf] at hsw
      | cons c0 t0 =>
        rw [hr] at hsw
        simp only [startsWithStr, List.isPrefixOf, List.isPrefixOf_nil_left,
          Bool.and_true, beq_iff_eq] at hsw
        refine ⟨t0, by rw [hsw], ?_⟩
        intro c hc
        exact hword c (hr ▸ List.mem_cons_of_mem c0 hc)
    · rw [if_neg hsw]
      exact ⟨reSubStep n, rfl, hword⟩
  obtain ⟨t0, heq, ht0⟩ := hshape
  rw [heq]
  by_cases hkw : isKeywordStr ('_' :: t0) = true
  · rw [if_pos hkw]
    refine ⟨t0 ++ ['_'], rfl, ?_⟩
    intro c hc
    rcases List.mem_append.mp hc with hc | hc
    · exact ht0 c hc
    · simp at hc
      rw [hc]
      rfl
  · rw [if_neg hkw]
    exact ⟨t0, rfl, ht0⟩

theorem isKeywordStr_underscore (t : Str) :
    isKeywordStr ('_' :: t) = false := rfl

theorem shortcutAny_underscore (t : Str) :
    shortcutInvalidList.any (fun w => w = ('_' :: t : Str)) = false := rfl

theorem convertPure_valid (n : Str) :
    isValidAttrB shortcutInvalidList (convertPure n) = true := by
  obtain ⟨t, heq, hword⟩ := convertPure_shape n
  rw [heq]
  unfold isValidAttrB
  rw [isKeywordStr_underscore, shortcutAny_underscore]
  unfold isIdentStr
  simp only [Bool.not_false, Bool.and_true]
  simp [List.all_eq_true]
  exact hword

theorem mem_hasKeyA {α : Type} (m : List (Str × α)) (kv : Str × α)
    (h : kv ∈ m) : hasKeyA m kv.1 = true := by
  unfold hasKeyA
  rw [List.any_eq_true]
  exact ⟨kv, h, by simp⟩

theorem hasKeyA_false_key_ne {α : Type} (m : List (Str × α)) (k : Str)
    (kv : Str × α) (h : hasKeyA m k = false) (hm : kv ∈ m) : kv.1 ≠ k := by
  intro he
  rw [← he] at h
  rw [mem_hasKeyA m kv hm] at h
  exact Bool.true_eq_false.mp h

theorem insertA_not_has {α : Type} (m : List (Str × α)) (k : Str) (v : α)
    (h : hasKeyA m k = false) : insertA m k v = m ++ [(k, v)] := by
  induction m with
  | nil => rfl
  | cons kv rest ih =>
    obtain ⟨k0, v0⟩ := kv
    unfold hasKeyA at h
    rw [List.any_cons, Bool.or_eq_false_iff] at h
    obtain ⟨h1, h2⟩ := h
    simp only [decide_eq_false_iff_not] at h1
    unfold insertA
    rw [if_neg h1, ih h2]
    rfl

theorem hasKeyA_append {α : Type} (m m2 : List (Str × α)) (k : Str) :
    hasKeyA (m ++ m2) k = (hasKeyA m k || hasKeyA m2 k) := by
  unfold hasKeyA
  exact List.any_append

theorem hasKeyA_false_not_mem_map {α : Type} (m : List (Str × α)) (k : Str)
    (h : hasKeyA m k = false) : k ∉ m.map Prod.fst := by
  intro hmem
  obtain ⟨kv, hkv, hfst⟩ := List.mem_map.mp hmem
  exact hasKeyA_false_key_ne m k kv h hkv hfst

theorem wfPVB_pyPath (v : PValue) (h : wfPVB v = true) :
    wfPB (pyPath v) = true := by
  cases v with
  | strV s => exact parsePath_wf s
  | pathV p => exact h

theorem regInv_fresh : RegInv freshReg := by
  refine ⟨by simp [freshReg], ?_, ?_, ?_, rfl⟩
  · intro kv h
    simp [freshReg] at h
  · intro kv h
    simp [freshReg] at h
  · intro k o h
    simp [freshReg, freshConv, lookupA] at h

theorem regInv_addSc (R : SReg) (n : Str) (v : PValue) (R' : SReg)
    (hwf : wfPVB v = true)
    (hnc : toValidPure shortcutInvalidList n ≠ pnConvKey)
    (h : addSc R n v false = (R', .ok ()))
    (hinv : RegInv R) : RegInv R' := by
  obtain ⟨c', htv, hcol, hR⟩ := addSc_ok_elim R n v false R' hnc h
  have hcol' : hasKeyA R.entries (toValidPure shortcutInvalidList n) = false := by
    simpa using hcol
  obtain ⟨hnd, hvals, hkeys, hv2o, _⟩ := hinv
  obtain ⟨hpn, hcases, _⟩ := toValidName_ok_cases _ _ _ _ _ htv
  have hins := insertA_not_has R.entries (toValidPure shortcutInvalidList n)
    (PValue.pathV (pyPath v)) hcol'
  have hknotin := hasKeyA_false_not_mem_map R.entries _ hcol'
  subst hR
  refine ⟨?_, ?_, ?_, ?_, rfl⟩
  · show ((insertA R.entries (toValidPure shortcutInvalidList n)
      (PValue.pathV (pyPath v))).map Prod.fst).Nodup
    rw [hins, List.map_append, List.nodup_append]
    refine ⟨hnd, by simp, ?_⟩
    intro a ha hb
    simp only [List.map_cons, List.map_nil, List.mem_singleton] at hb
    rw [hb] at ha
    exact hknotin ha
  · intro kv hkv
    have hkv2 : kv ∈ insertA R.entries (toValidPure shortcutInvalidList n)
      (PValue.pathV (pyPath v)) := hkv
    rw [hins] at hkv2
    rcases List.mem_append.mp hkv2 with hm | hm
    · exact hvals kv hm
    · simp only [List.mem_singleton] at hm
      rw [hm]
      exact ⟨pyPath v, rfl, wfPVB_pyPath v hwf⟩
  · intro kv hkv
    have hkv2 : kv ∈ insertA R.entries (toValidPure shortcutInvalidList n)
      (PValue.pathV (pyPath v)) := hkv
    rw [hins] at hkv2
    rcases hcases with ⟨hval, hkn, hcc⟩ | ⟨hval, hkn, hcc⟩
    · subst hcc
      rcases List.mem_append.mp hkv2 with hm | hm
      · exact hkeys kv hm
      · simp only [List.mem_singleton] at hm
        rw [hm]
        show EntryKeyOk R.conv (toValidPure shortcutInvalidList n)
        cases hl : lookupA R.conv.v2o (toValidPure shortcutInvalidList n) with
        | some o =>
          have := hv2o _ o hl
          rw [hcol'] at this
          exact absurd this (by simp)
        | none =>
          refine Or.inr ⟨hl, ?_, ?_⟩
          · rw [hkn]
            exact hval
          · rw [hkn]
            exact hpn
    · subst hcc
      rcases List.mem_append.mp hkv2 with hm | hm
      · have hne := hasKeyA_false_key_ne R.entries _ kv hcol' hm
        have hold := hkeys kv hm
        have hlne : lookupA (convRecord R.conv n (convertPure n)).v2o kv.1
            = lookupA R.conv.v2o kv.1 := by
          show lookupA (insertA R.conv.v2o (convertPure n) n) kv.1 = _
          refine lookupA_insertA_ne _ _ _ _ ?_
          rw [← hkn]
          exact fun he => hne he.symm
        show EntryKeyOk (convRecord R.conv n (convertPure n)) kv.1
        rcases hold with ⟨o, ho1, ho2, ho3, ho4⟩ | ⟨h1, h2, h3⟩
        · exact Or.inl ⟨o, by rw [hlne]; exact ho1, ho2, ho3, ho4⟩
        · exact Or.inr ⟨by rw [hlne]; exact h1, h2, h3⟩
      · simp only [List.mem_singleton] at hm
        rw [hm]
        show EntryKeyOk (convRecord R.conv n (convertPure n))
          (toValidPure shortcutInvalidList n)
        have hl : lookupA (convRecord R.conv n (convertPure n)).v2o
            (toValidPure shortcutInvalidList n) = some n := by
          rw [hkn]
          exact lookupA_insertA_self _ _ _
        exact Or.inl ⟨n, hl, hval, hpn, hkn.symm⟩
  · intro k0 o hl
    show hasKeyA (insertA R.entries (toValidPure shortcutInvalidList n)
      (PValue.pathV (pyPath v))) k0 = true
    rw [hins, hasKeyA_append]
    rcases hcases with ⟨hval, hkn, hcc⟩ | ⟨hval, hkn, hcc⟩
    · subst hcc
      rw [hv2o k0 o hl]
      rfl
    · subst hcc
      have hl2 : lookupA (insertA R.conv.v2o (convertPure n) n) k0
          = some o := hl
      by_cases hk0 : convertPure n = k0
      · have : hasKeyA [((toValidPure shortcutInvalidList n),
            PValue.pathV (pyPath v))] k0 = true := by
          simp [hasKeyA, hkn, hk0]
        rw [this]
        simp
      · rw [lookupA_insertA_ne _ _ _ _ hk0] at hl2
        rw [hv2o k0 o hl2]
        rfl

theorem runAdds_inv :
    ∀ (ops : List (Str × PValue)) (R0 R : SReg), RegInv R0 →
    (∀ op ∈ ops, wfPVB op.2 = true) →
    (∀ op ∈ ops, toValidPure shortcutInvalidList op.1 ≠ pnConvKey) →
    runAdds R0 ops = some R → RegInv R := by
  intro ops
  induction ops with
  | nil =>
    intro R0 R h _ _ hr
    unfold runAdds at hr
    rw [← Option.some.inj hr]
    exact h
  | cons op rest ih =>
    intro R0 R h hwf hnc hr
    obtain ⟨nn, vv⟩ := op
    unfold runAdds at hr
    cases hadd : addSc R0 nn vv false with
    | mk R1 res =>
      rw [hadd] at hr
      cases res with
      | ok u =>
        cases u
        simp only at hr
        exact ih R1 R
          (regInv_addSc R0 nn vv R1 (hwf _ (List.mem_cons_self _ _))
            (hnc _ (List.mem_cons_self _ _)) hadd h)
          (fun op2 hop => hwf op2 (List.mem_cons_of_mem _ hop))
          (fun op2 hop => hnc op2 (List.mem_cons_of_mem _ hop)) hr
      | error e =>
        simp only at hr
        exact absurd hr (by simp)

theorem mem_insertA {α : Type} (m : List (Str × α)) (k : Str) (v : α)
    (kv : Str × α) (h : kv ∈ insertA m k v) : kv ∈ m ∨ kv = (k, v) := by
  induction m with
  | nil =>
    simp [insertA] at h
    exact Or.inr h
  | cons kv0 rest ih =>
    obtain ⟨k0, v0⟩ := kv0
    unfold insertA at h
    by_cases h0 : k0 = k
    · rw [if_pos h0] at h
      rcases List.mem_cons.mp h with h | h
      · subst h0
        exact Or.inr (by rw [h])
      · exact Or.inl (List.mem_cons_of_mem _ h)
    · rw [if_neg h0] at h
      rcases List.mem_cons.mp h with h | h
      · exact Or.inl (h ▸ List.mem_cons_self _ _)
      · rcases ih h with h2 | h2
        · exact Or.inl (List.mem_cons_of_mem _ h2)
        · exact Or.inr h2

theorem runAdds_keys :
    ∀ (ops : List (Str × PValue)) (R0 R : SReg),
    runAdds R0 ops = some R → ∀ kv ∈ R.entries, kv ∈ R0.entries ∨
      ∃ op ∈ ops, kv.1 = toValidPure shortcutInvalidList op.1 := by
  intro ops
  induction ops with
  | nil =>
    intro R0 R hr kv hkv
    unfold runAdds at hr
    rw [Option.some.inj hr]
    exact Or.inl hkv
  | cons op rest ih =>
    intro R0 R hr kv hkv
    obtain ⟨nn, vv⟩ := op
    unfold runAdds at hr
    cases hadd : addSc R0 nn vv false with
    | mk R1 res =>
      rw [hadd] at hr
      cases res with
      | ok u =>
        cases u
        simp only at hr
        obtain ⟨_, c', _, hcase⟩ := addSc_ok_cases R0 nn vv false R1 hadd
        rcases ih R1 R hr kv hkv with h1 | ⟨op2, hop2, hk2⟩
        · rcases hcase with ⟨_, hR1⟩ | ⟨_, _, hR1⟩
          · rw [hR1] at h1
            exact Or.inl h1
          · rw [hR1] at h1
            rcases mem_insertA _ _ _ kv h1 with h2 | h2
            · exact Or.inl h2
            · exact Or.inr ⟨(nn, vv), List.mem_cons_self _ _,
                by rw [h2]⟩
        · exact Or.inr ⟨op2, List.mem_cons_of_mem _ hop2, hk2⟩
      | error e =>
        simp only at hr
        exact absurd hr (by simp)

theorem exportDict_eq_expList (R : SReg)
    (h : ∀ kv ∈ R.entries, startsWithStr pnMark kv.1 = false)
    (hclob : R.clob = none) :
    exportDict R = .ok (expList R.conv R.entries) := by
  show (match R.clob with
    | none =>
      Except.ok ((R.entries.filter
        (fun (kv : Str × PValue) => !(startsWithStr pnMark kv.1))).map
          (fun (kv : Str × PValue) =>
            (converterGet R.conv kv.1, pvStr kv.2)))
    | some _ =>
      if (R.entries.filter
          (fun (kv : Str × PValue) => !(startsWithStr pnMark kv.1))).isEmpty
      then Except.ok [] else Except.error PNErr.attributeError) = _
  rw [hclob]
  unfold expList
  rw [List.filter_eq_self.mpr (fun kv hkv => by rw [h kv hkv]; rfl)]

theorem loadDict_cons (st : SReg) (n s : Str) (rest : List (Str × Str))
    (ow : Bool) (hclob : st.clob = none) :
    loadDict st ((n, s) :: rest) ow =
      (match toValidName shortcutInvalidList st.conv n with
        | .error e => .error e
        | .ok (k, c') =>
          match addSc ⟨c', st.entries, none⟩ k (.pathV (parsePath s)) ow with
          | (_, .error e) => Except.error e
          | (R2, .ok _) => loadDict R2 rest ow) := by
  show (match st.clob with
    | some _ => Except.error PNErr.attributeError
    | none =>
      match toValidName shortcutInvalidList st.conv n with
      | .error e => Except.error e
      | .ok (k, c') =>
        match addSc ⟨c', st.entries, none⟩ k (.pathV (parsePath s)) ow with
        | (_, .error e) => Except.error e
        | (R2, .ok _) => loadDict R2 rest ow) = _
  rw [hclob]

theorem loadDict_step_conv (st : SReg) (o k : Str) (p : PObj)
    (rest : List (Str × Str))
    (ho_pn : startsWithStr pnMark o = false)
    (ho_inval : isValidAttrB shortcutInvalidList o = false)
    (ho_conv : convertPure o = k)
    (hpnk : startsWithStr pnMark k = false)
    (hhask : hasKeyA st.entries k = false)
    (hwfp : wfPB p = true)
    (hclob : st.clob = none) :
    loadDict st ((o, renderPath p) :: rest) false =
      loadDict ⟨convRecord st.conv o k, st.entries ++ [(k, .pathV p)], none⟩
        rest false := by
  have hvalk : isValidAttrB shortcutInvalidList k = true := by
    rw [← ho_conv]
    exact convertPure_valid o
  have htv1 : toValidName shortcutInvalidList st.conv o =
      .ok (k, convRecord st.conv o k) := by
    unfold toValidName
    rw [ho_pn, ho_inval]
    simp [ho_conv]
  have htv2 : toValidName shortcutInvalidList (convRecord st.conv o k) k =
      .ok (k, convRecord st.conv o k) := by
    unfold toValidName
    rw [hpnk, hvalk]
    simp
  have hparse : PValue.pathV (pyPath (.pathV (parsePath (renderPath p))))
      = PValue.pathV p := by
    rw [show pyPath (.pathV (parsePath (renderPath p)))
        = parsePath (renderPath p) from rfl, renderPath_roundtrip p hwfp]
  have hknc : k ≠ pnConvKey := ne_pnConvKey k hpnk
  have hsetattr : setattrSc ⟨convRecord st.conv o k, st.entries, none⟩ k
      (.pathV (parsePath (renderPath p))) false =
      .ok ⟨convRecord st.conv o k, st.entries ++ [(k, .pathV p)], none⟩ := by
    unfold setattrSc
    rw [if_neg hknc]
    have hcond : (hasKeyA (⟨convRecord st.conv o k, st.entries, none⟩ :
        SReg).entries k && !false) = false := by
      simpa using hhask
    rw [hcond]
    simp only [Bool.false_eq_true, if_false]
    rw [show (⟨convRecord st.conv o k, st.entries, none⟩ : SReg).entries
        = st.entries from rfl, hparse,
      insertA_not_has st.entries k (PValue.pathV p) hhask]
  have haddSc : addSc ⟨convRecord st.conv o k, st.entries, none⟩ k
      (.pathV (parsePath (renderPath p))) false =
      (⟨convRecord st.conv o k, st.entries ++ [(k, .pathV p)], none⟩,
        .ok ()) := by
    show (match toValidName shortcutInvalidList (convRecord st.conv o k) k with
      | .error e => ((⟨convRecord st.conv o k, st.entries, none⟩ : SReg),
          Except.error e)
      | .ok (k2, c2) =>
        match setattrSc ⟨c2, st.entries, none⟩ k2
            (.pathV (parsePath (renderPath p))) false with
        | .error e => ((⟨c2, st.entries, none⟩ : SReg), Except.error e)
        | .ok R2 => (R2, Except.ok ())) = _
    rw [htv2]
    show (match setattrSc ⟨convRecord st.conv o k, st.entries, none⟩ k
        (.pathV (parsePath (renderPath p))) false with
      | .error e => ((⟨convRecord st.conv o k, st.entries, none⟩ : SReg),
          Except.error e)
      | .ok R2 => (R2, Except.ok ())) = _
    rw [hsetattr]
  rw [loadDict_cons st o (renderPath p) rest false hclob, htv1]
  show (match addSc ⟨convRecord st.conv o k, st.entries, none⟩ k
      (.pathV (parsePath (renderPath p))) false with
    | (_, .error e) => Except.error e
    | (R2, .ok _) => loadDict R2 rest false) = _
  rw [haddSc]

theorem loadDict_step_pass (st : SReg) (k : Str) (p : PObj)
    (rest : List (Str × Str))
    (hvalk : isValidAttrB shortcutInvalidList k = true)
    (hpnk : startsWithStr pnMark k = false)
    (hhask : hasKeyA st.entries k = false)
    (hwfp : wfPB p = true)
    (hclob : st.clob = none) :
    loadDict st ((k, renderPath p) :: rest) false =
      loadDict ⟨st.conv, st.entries ++ [(k, .pathV p)], none⟩ rest false := by
  have htv1 : toValidName shortcutInvalidList st.conv k = .ok (k, st.conv) := by
    unfold toValidName
    rw [hpnk, hvalk]
    simp
  have hparse : PValue.pathV (pyPath (.pathV (parsePath (renderPath p))))
      = PValue.pathV p := by
    rw [show pyPath (.pathV (parsePath (renderPath p)))
        = parsePath (renderPath p) from rfl, renderPath_roundtrip p hwfp]
  have hknc : k ≠ pnConvKey := ne_pnConvKey k hpnk
  have hsetattr : setattrSc ⟨st.conv, st.entries, none⟩ k
      (.pathV (parsePath (renderPath p))) false =
      .ok ⟨st.conv, st.entries ++ [(k, .pathV p)], none⟩ := by
    unfold setattrSc
    rw [if_neg hknc]
    have hcond : (hasKeyA (⟨st.conv, st.entries, none⟩ : SReg).entries k
        && !false) = false := by
      simpa using hhask
    rw [hcond]
    simp only [Bool.false_eq_true, if_false]
    rw [show (⟨st.conv, st.entries, none⟩ : SReg).entries = st.entries
        from rfl,
      hparse, insertA_not_has st.entries k (PValue.pathV p) hhask]
  have haddSc : addSc ⟨st.conv, st.entries, none⟩ k
      (.pathV (parsePath (renderPath p))) false =
      (⟨st.conv, st.entries ++ [(k, .pathV p)], none⟩, .ok ()) := by
    show (match toValidName shortcutInvalidList st.conv k with
      | .error e => ((⟨st.conv, st.entries, none⟩ : SReg), Except.error e)
      | .ok (k2, c2) =>
        match setattrSc ⟨c2, st.entries, none⟩ k2
            (.pathV (parsePath (renderPath p))) false with
        | .error e => ((⟨c2, st.entries, none⟩ : SReg), Except.error e)
        | .ok R2 => (R2, Except.ok ())) = _
    rw [htv1]
    show (match setattrSc ⟨st.conv, st.entries, none⟩ k
        (.pathV (parsePath (renderPath p))) false with
      | .error e => ((⟨st.conv, st.entries, none⟩ : SReg), Except.error e)
      | .ok R2 => (R2, Except.ok ())) = _
    rw [hsetattr]
  rw [loadDict_cons st k (renderPath p) rest false hclob, htv1]
  show (match addSc ⟨st.conv, st.entries, none⟩ k
      (.pathV (parsePath (renderPath p))) false with
    | (_, .error e) => Except.error e
    | (R2, .ok _) => loadDict R2 rest false) = _
  rw [haddSc]

theorem loadDict_aux (c0 : Converter) :
    ∀ (ents : List (Str × PValue)) (st : SReg),
    (ents.map Prod.fst).Nodup →
    (∀ kv ∈ ents, startsWithStr pnMark kv.1 = false) →
    (∀ kv ∈ ents, ∃ p, kv.2 = PValue.pathV p ∧ wfPB p = true) →
    (∀ kv ∈ ents, EntryKeyOk c0 kv.1) →
    (∀ kv ∈ ents, hasKeyA st.entries kv.1 = false) →
    (∀ kv ∈ ents, lookupA st.conv.v2o kv.1 = none) →
    st.clob = none →
    ∃ stf, loadDict st (expList c0 ents) false = .ok stf ∧
      stf.entries = st.entries ++ ents ∧
      (∀ kv ∈ ents, converterGet stf.conv kv.1 = converterGet c0 kv.1) ∧
      (∀ k0, (∀ kv ∈ ents, kv.1 ≠ k0) →
        lookupA stf.conv.v2o k0 = lookupA st.conv.v2o k0) := by
  intro ents
  induction ents with
  | nil =>
    intro st _ _ _ _ _ _ _
    exact ⟨st, rfl, (List.append_nil _).symm, by simp, fun _ _ => rfl⟩
  | cons kv rest ih =>
    intro st hnd hpn hvals hkeys hhas hv2o hcl
    obtain ⟨k, v⟩ := kv
    obtain ⟨p, hvp0, hwfp⟩ := hvals (k, v) (List.mem_cons_self _ _)
    have hvp : v = PValue.pathV p := hvp0
    subst hvp
    have hek := hkeys (k, PValue.pathV p) (List.mem_cons_self _ _)
    have hpnk := hpn (k, PValue.pathV p) (List.mem_cons_self _ _)
    have hhask := hhas (k, PValue.pathV p) (List.mem_cons_self _ _)
    have hv2ok := hv2o (k, PValue.pathV p) (List.mem_cons_self _ _)
    have hndk : k ∉ rest.map Prod.fst := (List.nodup_cons.mp hnd).1
    have hndrest : (rest.map Prod.fst).Nodup := (List.nodup_cons.mp hnd).2
    have hrestne : ∀ kv2 ∈ rest, kv2.1 ≠ k := by
      intro kv2 hkv2 he
      exact hndk (he ▸ List.mem_map_of_mem Prod.fst hkv2)
    have hexp : expList c0 ((k, PValue.pathV p) :: rest) =
        (converterGet c0 k, renderPath p) :: expList c0 rest := rfl
    rcases hek with ⟨o, hl, ho_inval, ho_pn, ho_conv⟩ | ⟨hl, hvalk, _⟩
    · -- the key was recorded: the export key is the recorded original
      have hget : converterGet c0 k = o := by
        unfold converterGet
        rw [hl]
      have hstep := loadDict_step_conv st o k p (expList c0 rest)
        ho_pn ho_inval ho_conv hpnk hhask hwfp hcl
      obtain ⟨stf, hload, hentries, hgets, houter⟩ :=
        ih ⟨convRecord st.conv o k, st.entries ++ [(k, PValue.pathV p)], none⟩
          hndrest
          (fun kv2 h2 => hpn kv2 (List.mem_cons_of_mem _ h2))
          (fun kv2 h2 => hvals kv2 (List.mem_cons_of_mem _ h2))
          (fun kv2 h2 => hkeys kv2 (List.mem_cons_of_mem _ h2))
          (by
            intro kv2 h2
            show hasKeyA (st.entries ++ [(k, PValue.pathV p)]) kv2.1 = false
            rw [hasKeyA_append, hhas kv2 (List.mem_cons_of_mem _ h2)]
            simp only [hasKeyA, List.any_cons, List.any_nil, Bool.false_or,
              Bool.or_false, decide_eq_false_iff_not]
            exact fun he => hrestne kv2 h2 he.symm)
          (by
            intro kv2 h2
            show lookupA (insertA st.conv.v2o k o) kv2.1 = none
            rw [lookupA_insertA_ne _ _ _ _ (fun he => hrestne kv2 h2 he.symm)]
            exact hv2o kv2 (List.mem_cons_of_mem _ h2))
          rfl
      refine ⟨stf, ?_, ?_, ?_, ?_⟩
      · rw [hexp, hget, hstep]
        exact hload
      · rw [hentries]
        show (st.entries ++ [(k, PValue.pathV p)]) ++ rest = _
        rw [List.append_assoc]
        rfl
      · intro kv2 h2
        rcases List.mem_cons.mp h2 with h2 | h2
        · rw [h2]
          show converterGet stf.conv k = converterGet c0 k
          have h1 := houter k hrestne
          unfold converterGet
          rw [h1]
          show (match lookupA (insertA st.conv.v2o k o) k with
            | some org => org
            | none => k) = _
          rw [lookupA_insertA_self, hl]
        · exact hgets kv2 h2
      · intro k0 hne0
        have h1 := houter k0 (fun kv2 h2 => hne0 kv2 (List.mem_cons_of_mem _ h2))
        rw [h1]
        show lookupA (insertA st.conv.v2o k o) k0 = _
        exact lookupA_insertA_ne _ _ _ _
          (fun he => hne0 (k, PValue.pathV p) (List.mem_cons_self _ _) he)
    · -- nothing recorded: the key itself is the export key (passthrough)
      have hget : converterGet c0 k = k := by
        unfold converterGet
        rw [hl]
      have hstep := loadDict_step_pass st k p (expList c0 rest)
        hvalk hpnk hhask hwfp hcl
      obtain ⟨stf, hload, hentries, hgets, houter⟩ :=
        ih ⟨st.conv, st.entries ++ [(k, PValue.pathV p)], none⟩
          hndrest
          (fun kv2 h2 => hpn kv2 (List.mem_cons_of_mem _ h2))
          (fun kv2 h2 => hvals kv2 (List.mem_cons_of_mem _ h2))
          (fun kv2 h2 => hkeys kv2 (List.mem_cons_of_mem _ h2))
          (by
            intro kv2 h2
            show hasKeyA (st.entries ++ [(k, PValue.pathV p)]) kv2.1 = false
            rw [hasKeyA_append, hhas kv2 (List.mem_cons_of_mem _ h2)]
            simp only [hasKeyA, List.any_cons, List.any_nil, Bool.false_or,
              Bool.or_false, decide_eq_false_iff_not]
            exact fun he => hrestne kv2 h2 he.symm)
          (fun kv2 h2 => hv2o kv2 (List.mem_cons_of_mem _ h2))
          rfl
      refine ⟨stf, ?_, ?_, ?_, ?_⟩
      · rw [hexp, hget, hstep]
        exact hload
      · rw [hentries]
        show (st.entries ++ [(k, PValue.pathV p)]) ++ rest = _
        rw [List.append_assoc]
        rfl
      · intro kv2 h2
        rcases List.mem_cons.mp h2 with h2 | h2
        · rw [h2]
          show converterGet stf.conv k = converterGet c0 k
          have h1 := houter k hrestne
          unfold converterGet
          rw [h1]
          show (match lookupA st.conv.v2o k with
            | some org => org
            | none => k) = _
          rw [hv2ok, hl]
        · exact hgets kv2 h2
      · intro k0 hne0
        exact houter k0 (fun kv2 h2 => hne0 kv2 (List.mem_cons_of_mem _ h2))

/-- C3 (amended): for every registry built by successful `add` calls none of
whose canonical keys begins with "_pn_", exporting it (original names as
keys, string-rendered paths as values) and then importing that mapping into
a fresh empty registry reproduces exactly the original list of (original
name, path) pairs. -/
theorem c3_amended (ops : List (Str × PValue)) (R : SReg)
    (hrun : runAdds freshReg ops = some R)
    (hwf : ∀ op ∈ ops, wfPVB op.2 = true)
    (hpn : ∀ op ∈ ops,
      startsWithStr pnMark (toValidPure shortcutInvalidList op.1) = false) :
    ∃ L R2, exportDict R = .ok L ∧ loadDict freshReg L false = .ok R2 ∧
      origPairs R2 = origPairs R := by
  have hnc : ∀ op ∈ ops, toValidPure shortcutInvalidList op.1 ≠ pnConvKey :=
    fun op hop => ne_pnConvKey _ (hpn op hop)
  have hinv := runAdds_inv ops freshReg R regInv_fresh hwf hnc hrun
  obtain ⟨hnd, hvals, hkeys, _, hclob⟩ := hinv
  have hpnent : ∀ kv ∈ R.entries, startsWithStr pnMark kv.1 = false := by
    intro kv hkv
    rcases runAdds_keys ops freshReg R hrun kv hkv with h0 | ⟨op, hop, hk⟩
    · exact absurd h0 (by simp [freshReg])
    · rw [hk]
      exact hpn op hop
  have hexp := exportDict_eq_expList R hpnent hclob
  obtain ⟨R2, hload, hent, hgets, _⟩ :=
    loadDict_aux R.conv R.entries freshReg hnd hpnent hvals hkeys
      (fun kv _ => rfl) (fun kv _ => rfl) rfl
  refine ⟨expList R.conv R.entries, R2, hexp, hload, ?_⟩
  unfold origPairs
  rw [hent, show freshReg.entries = ([] : List (Str × PValue)) from rfl,
    List.nil_append]
  apply List.map_congr_left
  intro kv hkv
  show (converterGet R2.conv kv.1, kv.2) = (converterGet R.conv kv.1, kv.2)
  rw [hgets kv hkv]

/-- Witness for `c3_amended`: a registry with the shortcuts "my folder" and
"proj" round-trips through export and import. -/
theorem c3_amended_witness :
    ∃ L R2, exportDict c3RegW = .ok L ∧ loadDict freshReg L false = .ok R2 ∧
      origPairs R2 = origPairs c3RegW :=
  c3_amended c3Ops c3RegW (by decide) (by decide) (by decide)

theorem hasKeyA_isSome {α : Type} (m : List (Str × α)) (k : Str) :
    hasKeyA m k = (lookupA m k).isSome := by
  induction m with
  | nil => rfl
  | cons kv rest ih =>
    obtain ⟨k0, v0⟩ := kv
    by_cases h : k0 = k
    · simp [hasKeyA, lookupA, h]
    · simp [hasKeyA, lookupA, h, List.any_cons]
      rw [← ih]
      rfl

theorem hasKeyA_mono_insertA {α : Type} (m : List (Str × α))
    (key k : Str) (v : α) (h : hasKeyA m k = true) :
    hasKeyA (insertA m key v) k = true := by
  rw [hasKeyA_isSome] at h ⊢
  by_cases hk : key = k
  · subst hk
    rw [lookupA_insertA_self]
    rfl
  · rw [lookupA_insertA_ne _ _ _ _ hk]
    exact h

theorem hasKeyA_insertA_self {α : Type} (m : List (Str × α)) (k : Str)
    (v : α) : hasKeyA (insertA m k v) k = true := by
  rw [hasKeyA_isSome, lookupA_insertA_self]
  rfl

theorem lookupKey_insertKey_self (m : Node) (k : Str) (v : Node) :
    lookupKey (insertKey m k v) k = some v := by
  induction m with
  | mk n p f s _ => simp [insertKey, lookupKey]
  | mnil => simp [insertKey, lookupKey]
  | mcons k0 c rest ihc ihr =>
    by_cases h : k0 = k
    · simp [insertKey, lookupKey, h]
    · simp [insertKey, lookupKey, h, ihr]

theorem lookupKey_insertKey_ne (m : Node) (key k : Str) (v : Node)
    (h : key ≠ k) : lookupKey (insertKey m key v) k = lookupKey m k := by
  induction m with
  | mk n p f s _ => simp [insertKey, lookupKey, h]
  | mnil => simp [insertKey, lookupKey, h]
  | mcons k0 c rest ihc ihr =>
    by_cases h0 : k0 = key
    · subst h0
      simp [insertKey, lookupKey, h]
    · simp [insertKey, lookupKey, h0, ihr]

theorem hasKeyNode_mono_insertKey (m : Node) (key k : Str) (v : Node)
    (h : hasKeyNode m k = true) :
    hasKeyNode (insertKey m key v) k = true := by
  unfold hasKeyNode at h ⊢
  by_cases hk : key = k
  · subst hk
    rw [lookupKey_insertKey_self]
    rfl
  · rw [lookupKey_insertKey_ne _ _ _ _ hk]
    exact h

theorem hasKeyNode_insertKey_self (m : Node) (k : Str) (v : Node) :
    hasKeyNode (insertKey m k v) k = true := by
  unfold hasKeyNode
  rw [lookupKey_insertKey_self]
  rfl

theorem nodeSubs_setFiles (nd : Node) (f : List (Str × Str)) :
    nodeSubs (setFiles nd f) = nodeSubs nd := by
  cases nd <;> rfl

theorem nodeFiles_setSubs (nd s : Node) :
    nodeFiles (setSubs nd s) = nodeFiles nd := by
  cases nd <;> rfl

theorem isMkB_setFiles (nd : Node) (f : List (Str × Str)) :
    isMkB (setFiles nd f) = isMkB nd := by
  cases nd <;> rfl

theorem isMkB_setSubs (nd s : Node) : isMkB (setSubs nd s) = isMkB nd := by
  cases nd <;> rfl

theorem nodeFiles_setFiles (nd : Node) (f : List (Str × Str))
    (h : isMkB nd = true) : nodeFiles (setFiles nd f) = f := by
  cases nd with
  | mk n p f0 s => rfl
  | mnil => exact absurd h (by simp [isMkB])
  | mcons k c rest => exact absurd h (by simp [isMkB])

theorem nodeSubs_setSubs (nd s : Node) (h : isMkB nd = true) :
    nodeSubs (setSubs nd s) = s := by
  cases nd with
  | mk n p f0 s0 => rfl
  | mnil => exact absurd h (by simp [isMkB])
  | mcons k c rest => exact absurd h (by simp [isMkB])

theorem hasKeyA_files_step (node : Node) (valid : Str) (p : Str) (k : Str)
    (h : hasKeyA (nodeFiles node) k = true) :
    hasKeyA (nodeFiles (setFiles node
      (insertA (nodeFiles node) valid p))) k = true := by
  cases node with
  | mk n pp f s => exact hasKeyA_mono_insertA f valid k p h
  | mnil => exact h
  | mcons k0 c rest => exact h

theorem hasKeyNode_subs_step (node : Node) (valid : Str) (ch : Node)
    (k : Str) (h : hasKeyNode (nodeSubs node) k = true) :
    hasKeyNode (nodeSubs (setSubs node
      (insertKey (nodeSubs node) valid ch))) k = true := by
  cases node with
  | mk n pp f s => exact hasKeyNode_mono_insertKey s valid k ch h
  | mnil => exact h
  | mcons k0 c rest => exact h

theorem hasKeyA_files_intro (node : Node) (valid : Str) (p : Str)
    (h : isMkB node = true) :
    hasKeyA (nodeFiles (setFiles node
      (insertA (nodeFiles node) valid p))) valid = true := by
  cases node with
  | mk n pp f s => exact hasKeyA_insertA_self f valid p
  | mnil => exact absurd h (by simp [isMkB])
  | mcons k0 c rest => exact absurd h (by simp [isMkB])

theorem hasKeyNode_subs_intro (node : Node) (valid : Str) (ch : Node)
    (h : isMkB node = true) :
    hasKeyNode (nodeSubs (setSubs node
      (insertKey (nodeSubs node) valid ch))) valid = true := by
  cases node with
  | mk n pp f s => exact hasKeyNode_insertKey_self s valid ch
  | mnil => exact absurd h (by simp [isMkB])
  | mcons k0 c rest => exact absurd h (by simp [isMkB])

theorem walkEntries_fileE (inv : List Str) (c : Converter) (path : Str)
    (node : Node) (n : Str) (rest : FSE) :
    walkEntries inv c path node (.fileE n rest) =
      (match toValidName inv c n with
        | .error e => .error e
        | .ok (valid, c1) =>
          walkEntries inv c1 path
            (setFiles node (insertA (nodeFiles node) valid
              (pathJoin path n))) rest) := rfl

theorem walkEntries_dirE (inv : List Str) (c : Converter) (path : Str)
    (node : Node) (n : Str) (sub rest : FSE) :
    walkEntries inv c path node (.dirE n sub rest) =
      (match toValidName inv c n with
        | .error e => .error e
        | .ok (valid, c1) =>
          match walkEntries inv c1 (pathJoin path n)
              (Node.mk n path [] .mnil) sub with
          | .error e => .error e
          | .ok (c2, child) =>
            walkEntries inv c2 path
              (setSubs node (insertKey (nodeSubs node) valid child))
                rest) := rfl

theorem walkEntries_mono (inv : List Str) :
    ∀ (es : FSE) (c : Converter) (path : Str) (node : Node)
      (c' : Converter) (node' : Node),
    walkEntries inv c path node es = .ok (c', node') →
    ∀ k, (hasKeyA (nodeFiles node) k = true →
        hasKeyA (nodeFiles node') k = true) ∧
      (hasKeyNode (nodeSubs node) k = true →
        hasKeyNode (nodeSubs node') k = true) := by
  intro es
  induction es with
  | nil =>
    intro c path node c' node' hok k
    obtain ⟨h1, h2⟩ := Prod.mk.inj (Except.ok.inj hok)
    rw [← h2]
    exact ⟨id, id⟩
  | fileE n rest ih =>
    intro c path node c' node' hok k
    rw [walkEntries_fileE] at hok
    cases htv : toValidName inv c n with
    | error e => simp [htv] at hok
    | ok p =>
      obtain ⟨valid, c1⟩ := p
      simp only [htv] at hok
      have hres := ih c1 path _ c' node' hok k
      refine ⟨fun h => hres.1 (hasKeyA_files_step node valid _ k h), ?_⟩
      intro h
      refine hres.2 ?_
      rw [nodeSubs_setFiles]
      exact h
  | dirE n sub rest ihsub ihrest =>
    intro c path node c' node' hok k
    rw [walkEntries_dirE] at hok
    cases htv : toValidName inv c n with
    | error e => simp [htv] at hok
    | ok p =>
      obtain ⟨valid, c1⟩ := p
      simp only [htv] at hok
      cases hsub : walkEntries inv c1 (pathJoin path n)
          (Node.mk n path [] .mnil) sub with
      | error e => simp [hsub] at hok
      | ok q =>
        obtain ⟨c2, child⟩ := q
        simp only [hsub] at hok
        have hres := ihrest c2 path _ c' node' hok k
        refine ⟨?_, fun h => hres.2 (hasKeyNode_subs_step node valid child k h)⟩
        intro h
        refine hres.1 ?_
        rw [nodeFiles_setSubs]
        exact h

theorem walkEntries_intro (inv : List Str) :
    ∀ (es : FSE) (c : Converter) (path : Str) (node : Node)
      (c' : Converter) (node' : Node),
    isMkB node = true →
    walkEntries inv c path node es = .ok (c', node') →
    (∀ fn, fseHasFile es fn = true →
      hasKeyA (nodeFiles node') (toValidPure inv fn) = true) ∧
    (∀ dn, fseHasDir es dn = true →
      hasKeyNode (nodeSubs node') (toValidPure inv dn) = true) := by
  intro es
  induction es with
  | nil =>
    intro c path node c' node' _ _
    exact ⟨fun fn h => absurd h (by simp [fseHasFile]),
      fun dn h => absurd h (by simp [fseHasDir])⟩
  | fileE n rest ih =>
    intro c path node c' node' hmk hok
    rw [walkEntries_fileE] at hok
    cases htv : toValidName inv c n with
    | error e => simp [htv] at hok
    | ok p =>
      obtain ⟨valid, c1⟩ := p
      simp only [htv] at hok
      have hvalid : valid = toValidPure inv n :=
        (toValidName_ok_cases _ _ _ _ _ htv).2.2
      have hmk1 : isMkB (setFiles node (insertA (nodeFiles node) valid
          (pathJoin path n))) = true := by
        rw [isMkB_setFiles]
        exact hmk
      have ihres := ih c1 path _ c' node' hmk1 hok
      constructor
      · intro fn hf
        have hf2 : n = fn ∨ fseHasFile rest fn = true := by
          have hb : (decide (n = fn) || fseHasFile rest fn) = true := hf
          simpa using hb
        rcases hf2 with heq | hrest
        · subst heq
          have hintro := hasKeyA_files_intro node valid (pathJoin path n) hmk
          have hmono := (walkEntries_mono inv rest c1 path _ c' node' hok
            (toValidPure inv n)).1
          apply hmono
          rw [← hvalid]
          exact hintro
        · exact ihres.1 fn hrest
      · intro dn hd
        exact ihres.2 dn hd
  | dirE n sub rest ihsub ihrest =>
    intro c path node c' node' hmk hok
    rw [walkEntries_dirE] at hok
    cases htv : toValidName inv c n with
    | error e => simp [htv] at hok
    | ok p =>
      obtain ⟨valid, c1⟩ := p
      simp only [htv] at hok
      cases hsub : walkEntries inv c1 (pathJoin path n)
          (Node.mk n path [] .mnil) sub with
      | error e => simp [hsub] at hok
      | ok q =>
        obtain ⟨c2, child⟩ := q
        simp only [hsub] at hok
        have hvalid : valid = toValidPure inv n :=
          (toValidName_ok_cases _ _ _ _ _ htv).2.2
        have hmk1 : isMkB (setSubs node (insertKey (nodeSubs node) valid
            child)) = true := by
          rw [isMkB_setSubs]
          exact hmk
        have ihres := ihrest c2 path _ c' node' hmk1 hok
        constructor
        · intro fn hf
          exact ihres.1 fn hf
        · intro dn hd
          have hd2 : n = dn ∨ fseHasDir rest dn = true := by
            have hb : (decide (n = dn) || fseHasDir rest dn) = true := hd
            simpa using hb
          rcases hd2 with heq | hrest
          · subst heq
            have hintro := hasKeyNode_subs_intro node valid child hmk
            have hmono := (walkEntries_mono inv rest c2 path _ c' node' hok
              (toValidPure inv n)).2
            apply hmono
            rw [← hvalid]
            exact hintro
          · exact ihres.2 dn hrest

/-- C2 counterexample: walking a directory holding the file "a.b" and the
folder "a-b" gives both entries the same canonical key "_a_b", and after the
walk that one key is present in the node's files map and subfolders map at
once — the keys are neither distinct nor confined to one map. -/
theorem c2_counterexample :
    toValidPure nodeInvalidList (['a','.','b'] : Str) =
      toValidPure nodeInvalidList (['a','-','b'] : Str) ∧
    walkEntries nodeInvalidList freshConv (['r'] : Str)
      (Node.mk (['r'] : Str) ([] : Str) [] .mnil) c2Es =
      .ok (c2OutConv, c2OutNode) ∧
    hasKeyA (nodeFiles c2OutNode) (['_','a','_','b'] : Str) = true ∧
    hasKeyNode (nodeSubs c2OutNode) (['_','a','_','b'] : Str) = true := by
  decide

/-- C2 (amended): when a directory's entries contain a file and a folder
whose names canonicalize to the same key, a successful walk leaves that key
present in the node's files map and subfolders map simultaneously — in the
"a.b"/"a-b" example both entries receive the single key "_a_b", tracked in
both maps. -/
theorem c2_amended (inv : List Str) (c : Converter) (path : Str)
    (node : Node) (es : FSE) (fn dn k : Str) (c' : Converter) (node' : Node)
    (hmk : isMkB node = true)
    (hf : fseHasFile es fn = true) (hd : fseHasDir es dn = true)
    (hkf : toValidPure inv fn = k) (hkd : toValidPure inv dn = k)
    (hok : walkEntries inv c path node es = .ok (c', node')) :
    hasKeyA (nodeFiles node') k = true ∧
    hasKeyNode (nodeSubs node') k = true := by
  have h := walkEntries_intro inv es c path node c' node' hmk hok
  exact ⟨hkf ▸ h.1 fn hf, hkd ▸ h.2 dn hd⟩

/-- Witness for `c2_amended` at the concrete "a.b"/"a-b" directory. -/
theorem c2_amended_witness :
    hasKeyA (nodeFiles c2OutNode) (['_','a','_','b'] : Str) = true ∧
    hasKeyNode (nodeSubs c2OutNode) (['_','a','_','b'] : Str) = true :=
  c2_amended nodeInvalidList freshConv (['r'] : Str)
    (Node.mk (['r'] : Str) ([] : Str) [] .mnil) c2Es
    (['a','.','b'] : Str) (['a','-','b'] : Str) (['_','a','_','b'] : Str)
    c2OutConv c2OutNode (by decide) (by decide) (by decide) (by decide)
    (by decide) (by decide)

/-- C8 counterexample: calling `remove` with the name "_pn_x" — which
resolves to no tracked subfolder and no tracked file — does not return with
a warning: the canonicalizer raises `ValueError` for the reserved `_pn_`
namespace before lookup even starts. -/
theorem c8_counterexample :
    hasKeyNode (nodeSubs (Node.mk (['r'] : Str) ([] : Str) [] .mnil))
      (['_','p','n','_','x'] : Str) = false ∧
    hasKeyA (nodeFiles (Node.mk (['r'] : Str) ([] : Str) [] .mnil))
      (['_','p','n','_','x'] : Str) = false ∧
    removeOp nodeInvalidList freshConv ([] : FS)
      (Node.mk (['r'] : Str) ([] : Str) [] .mnil)
      (['_','p','n','_','x'] : Str) = .error .namingViolation := by
  decide

/-- C8 (amended): for a name that does not use the reserved `_pn_` prefix,
`remove` with an untracked name returns normally (warning only) leaving the
maps and the filesystem unchanged; with a tracked file it deletes exactly
that filesystem entry and removes exactly that key from the files map; with
a tracked subfolder it deletes the subtree from the filesystem and removes
exactly that key from the subfolders map. -/
theorem c8_amended (inv : List Str) (c c1 : Converter) (fs : FS)
    (node : Node) (name k : Str)
    (htv : toValidName inv c name = .ok (k, c1)) :
    RemoveSpec inv c c1 fs node name k := by
  refine ⟨?_, ?_, ?_⟩
  · intro hns hnf
    unfold removeOp
    rw [htv]
    show (match lookupKey (nodeSubs node) k with
      | some _ =>
        match fsRmtree fs (pathJoin (nodeDir node) (converterGet c1 k)) with
        | .error e => Except.error e
        | .ok fs' =>
          Except.ok (fs', c1, setSubs node (eraseKey (nodeSubs node) k))
      | none =>
        match lookupA (nodeFiles node) k with
        | some p =>
          match fsRemoveFile fs p with
          | .error e => Except.error e
          | .ok fs' =>
            Except.ok (fs', c1, setFiles node (eraseA (nodeFiles node) k))
        | none => Except.ok (fs, c1, node)) = _
    rw [hns, hnf]
  · intro p hns hnf hcont
    unfold removeOp
    rw [htv]
    show (match lookupKey (nodeSubs node) k with
      | some _ =>
        match fsRmtree fs (pathJoin (nodeDir node) (converterGet c1 k)) with
        | .error e => Except.error e
        | .ok fs' =>
          Except.ok (fs', c1, setSubs node (eraseKey (nodeSubs node) k))
      | none =>
        match lookupA (nodeFiles node) k with
        | some p2 =>
          match fsRemoveFile fs p2 with
          | .error e => Except.error e
          | .ok fs' =>
            Except.ok (fs', c1, setFiles node (eraseA (nodeFiles node) k))
        | none => Except.ok (fs, c1, node)) = _
    rw [hns, hnf]
    show (match fsRemoveFile fs p with
      | .error e => Except.error e
      | .ok fs' =>
        Except.ok (fs', c1, setFiles node (eraseA (nodeFiles node) k))) = _
    unfold fsRemoveFile
    rw [hcont]
    rfl
  · intro ch hsome hcont
    unfold removeOp
    rw [htv]
    show (match lookupKey (nodeSubs node) k with
      | some _ =>
        match fsRmtree fs (pathJoin (nodeDir node) (converterGet c1 k)) with
        | .error e => Except.error e
        | .ok fs' =>
          Except.ok (fs', c1, setSubs node (eraseKey (nodeSubs node) k))
      | none =>
        match lookupA (nodeFiles node) k with
        | some p2 =>
          match fsRemoveFile fs p2 with
          | .error e => Except.error e
          | .ok fs' =>
            Except.ok (fs', c1, setFiles node (eraseA (nodeFiles node) k))
        | none => Except.ok (fs, c1, node)) = _
    rw [hsome]
    show (match fsRmtree fs (pathJoin (nodeDir node) (converterGet c1 k)) with
      | .error e => Except.error e
      | .ok fs' =>
        Except.ok (fs', c1, setSubs node (eraseKey (nodeSubs node) k))) = _
    unfold fsRmtree
    rw [hcont]
    rfl

/-- Witness for `c8_amended`: removing the untracked name "a.b" from an
empty node leaves filesystem, files map and subfolders map untouched. -/
theorem c8_amended_witness :
    RemoveSpec nodeInvalidList freshConv
      (convRecord freshConv (['a','.','b'] : Str) (['_','a','_','b'] : Str))
      ([] : FS) (Node.mk (['r'] : Str) ([] : Str) [] .mnil)
      (['a','.','b'] : Str) (['_','a','_','b'] : Str) :=
  c8_amended nodeInvalidList freshConv _ ([] : FS)
    (Node.mk (['r'] : Str) ([] : Str) [] .mnil)
    (['a','.','b'] : Str) (['_','a','_','b'] : Str) (by decide)

theorem toValidName_not_pn (inv : List Str) (c : Converter) (n : Str)
    (h : startsWithStr pnMark n = false) :
    toValidName inv c n = .ok (toValidPure inv n,
      if isValidAttrB inv n then c
      else convRecord c n (convertPure n)) := by
  unfold toValidName toValidPure
  rw [h]
  by_cases hval : isValidAttrB inv n <;> simp [hval]

theorem wfNode_elim (node : Node) (h : wfNode node = true) :
    ∃ nm pp ff ss, node = Node.mk nm pp ff ss ∧ wfChain ss = true := by
  cases node with
  | mk nm pp ff ss => exact ⟨nm, pp, ff, ss, rfl, h⟩
  | mnil => exact absurd h (by simp [wfNode])
  | mcons k c rest => exact absurd h (by simp [wfNode])

theorem wfChain_lookupKey (m : Node) (k : Str) (ch : Node)
    (hm : wfChain m = true) (hl : lookupKey m k = some ch) :
    wfNode ch = true := by
  induction m with
  | mk nm pp ff ss _ => exact absurd hl (by simp [lookupKey])
  | mnil => exact absurd hl (by simp [lookupKey])
  | mcons k0 c rest ihc ihr =>
    unfold wfChain at hm
    rw [Bool.and_eq_true] at hm
    unfold lookupKey at hl
    by_cases h0 : k0 = k
    · rw [if_pos h0] at hl
      rw [← Option.some.inj hl]
      exact hm.1
    · rw [if_neg h0] at hl
      exact ihr hm.2 hl

theorem wfChain_insertKey (m : Node) (k : Str) (v : Node)
    (hm : wfChain m = true) (hv : wfNode v = true) :
    wfChain (insertKey m k v) = true := by
  induction m with
  | mk nm pp ff ss _ =>
    show wfChain (.mcons k v .mnil) = true
    simp [wfChain, hv]
  | mnil =>
    show wfChain (.mcons k v .mnil) = true
    simp [wfChain, hv]
  | mcons k0 c rest ihc ihr =>
    unfold wfChain at hm
    rw [Bool.and_eq_true] at hm
    unfold insertKey
    by_cases h0 : k0 = k
    · rw [if_pos h0]
      simp [wfChain, hv, hm.2]
    · rw [if_neg h0]
      simp [wfChain, hm.1, ihr hm.2]

theorem wfNode_childOf (node : Node) (valid a : Str)
    (h : wfNode node = true) : wfNode (childOf node valid a) = true := by
  obtain ⟨nm, pp, ff, ss, hnd, hss⟩ := wfNode_elim node h
  subst hnd
  unfold childOf
  cases hl : lookupKey (nodeSubs (Node.mk nm pp ff ss)) valid with
  | some ch => exact wfChain_lookupKey ss valid ch hss hl
  | none => rfl

theorem mkdirLoop_cons (inv : List Str) (c : Converter) (node : Node)
    (a : Str) (rest : List Str) :
    mkdirLoop inv c node (a :: rest) =
      (match toValidName inv c a with
        | .error e => .error e
        | .ok (valid, c1) =>
          match mkdirLoop inv c1 (childOf node valid a) rest with
          | .error e => .error e
          | .ok (c2, child') =>
            .ok (c2, setSubs node
              (insertKey (nodeSubs node) valid child'))) := rfl

theorem mkdirLoop_ok (inv : List Str) :
    ∀ (parts : List Str) (c : Converter) (node : Node),
    wfNode node = true →
    (∀ a ∈ parts, startsWithStr pnMark a = false) →
    ∃ c' node', mkdirLoop inv c node parts = .ok (c', node') ∧
      wfNode node' = true ∧
      ∀ j, j ≤ parts.length →
        (followKeys node' ((parts.take j).map (toValidPure inv))).isSome
          = true := by
  intro parts
  induction parts with
  | nil =>
    intro c node hwf _
    refine ⟨c, node, rfl, hwf, ?_⟩
    intro j hj
    have hj0 : j = 0 := Nat.le_zero.mp hj
    subst hj0
    rfl
  | cons a rest ih =>
    intro c node hwf hpn
    have htv := toValidName_not_pn inv c a (hpn a (List.mem_cons_self a rest))
    have hchild := wfNode_childOf node (toValidPure inv a) a hwf
    obtain ⟨c2, child', hloop, hwfc, hfollow⟩ :=
      ih (if isValidAttrB inv a then c else convRecord c a (convertPure a))
        (childOf node (toValidPure inv a) a) hchild
        (fun x hx => hpn x (List.mem_cons_of_mem a hx))
    obtain ⟨nm, pp, ff, ss, hnd, hss⟩ := wfNode_elim node hwf
    refine ⟨c2, setSubs node
      (insertKey (nodeSubs node) (toValidPure inv a) child'), ?_, ?_, ?_⟩
    · rw [mkdirLoop_cons, htv]
      show (match mkdirLoop inv
          (if isValidAttrB inv a then c else convRecord c a (convertPure a))
          (childOf node (toValidPure inv a) a) rest with
        | .error e => Except.error e
        | .ok (c2, child') =>
          Except.ok (c2, setSubs node
            (insertKey (nodeSubs node) (toValidPure inv a) child'))) = _
      rw [hloop]
    · subst hnd
      show wfNode (Node.mk nm pp ff
        (insertKey ss (toValidPure inv a) child')) = true
      show wfChain (insertKey ss (toValidPure inv a) child') = true
      exact wfChain_insertKey ss _ child' hss hwfc
    · intro j hj
      cases j with
      | zero => rfl
      | succ j2 =>
        subst hnd
        show (followKeys (Node.mk nm pp ff
            (insertKey ss (toValidPure inv a) child'))
          (toValidPure inv a :: (rest.take j2).map (toValidPure inv))).isSome
            = true
        unfold followKeys
        rw [show nodeSubs (Node.mk nm pp ff
            (insertKey ss (toValidPure inv a) child'))
          = insertKey ss (toValidPure inv a) child' from rfl,
          lookupKey_insertKey_self]
        exact hfollow j2 (Nat.le_of_succ_le_succ hj)

theorem addPath_contains (f : FS) (p : Str) :
    (addPath f p).contains p = true := by
  unfold addPath
  by_cases h : f.contains p = true
  · rw [if_pos h]
    exact h
  · rw [if_neg h]
    simp

theorem addPath_mono (f : FS) (p q : Str) (h : f.contains q = true) :
    (addPath f p).contains q = true := by
  unfold addPath
  by_cases hc : f.contains p = true
  · rw [if_pos hc]
    exact h
  · rw [if_neg hc]
    have h2 : q ∈ f := by simpa using h
    simp [h2]

theorem foldl_addPath_props :
    ∀ (ps : List Str) (fs : FS),
    (∀ p ∈ ps, (ps.foldl addPath fs).contains p = true) ∧
    (∀ q, fs.contains q = true → (ps.foldl addPath fs).contains q = true) := by
  intro ps
  induction ps with
  | nil => exact fun fs => ⟨fun p hp => absurd hp (by simp), fun q hq => hq⟩
  | cons p0 rest ih =>
    intro fs
    constructor
    · intro p hp
      rcases List.mem_cons.mp hp with hp | hp
      · subst hp
        exact (ih (addPath fs p)).2 p (addPath_contains fs p)
      · exact (ih (addPath fs p0)).1 p hp
    · intro q hq
      exact (ih (addPath fs p0)).2 q (addPath_mono fs p0 q hq)

theorem relParts_eq (args : List Str) (hne : args ≠ [])
    (hcomp : ∀ a ∈ args, okComponentB a = true) :
    relParts args = args := by
  unfold relParts
  rw [if_neg (by simpa using hne)]
  refine joinSep_split slash args hne ?_
  intro g hg c hc
  have h := hcomp g hg
  unfold okComponentB at h
  simp only [Bool.and_eq_true, Bool.not_eq_true'] at h
  exact (contains_false_iff g slash).mp h.1.2 c hc

/-- C9 counterexample: `mkdir("folder1", "folder2")` succeeds and the
deepest created node is reachable in the tree, but the call returns `None` —
the source has no return statement — not the deepest created node. -/
theorem c9_counterexample :
    ((mkdirOp nodeInvalidList freshConv ([] : FS)
        (Node.mk (['r'] : Str) ([] : Str) [] .mnil)
        [['f','1'], ['f','2']]).toOption.map (fun out => out.ret)) =
      some none ∧
    ((mkdirOp nodeInvalidList freshConv ([] : FS)
        (Node.mk (['r'] : Str) ([] : Str) [] .mnil)
        [['f','1'], ['f','2']]).toOption.map (fun out =>
      (followKeys out.node
        ([['f','1'], ['f','2']].map
          (toValidPure nodeInvalidList))).isSome)) = some true := by
  decide

/-- C9 (amended): `mkdir` with a chain of clean path components creates the
full chain on the filesystem (intermediate levels as needed, no error when a
level already exists, existing entries preserved) and inserts one folder
node per component under its canonical key at the level it appears; the call
returns no value (`None`) — the deepest node is reachable in the tree, not
returned. -/
theorem c9_amended (inv : List Str) (c : Converter) (fs : FS) (node : Node)
    (args : List Str)
    (hwfn : wfNode node = true)
    (hne : args ≠ [])
    (hcomp : ∀ a ∈ args, okComponentB a = true) :
    ∃ c' node', mkdirOp inv c fs node args =
        .ok ⟨fsMakedirs fs (nodeDir node) args, c', node', none⟩ ∧
      (∀ p ∈ chainPaths (nodeDir node) args,
        (fsMakedirs fs (nodeDir node) args).contains p = true) ∧
      (∀ q, fs.contains q = true →
        (fsMakedirs fs (nodeDir node) args).contains q = true) ∧
      ∀ j, j ≤ args.length →
        (followKeys node' ((args.take j).map (toValidPure inv))).isSome
          = true := by
  have hpn : ∀ a ∈ args, startsWithStr pnMark a = false := by
    intro a ha
    have h := hcomp a ha
    unfold okComponentB at h
    simp only [Bool.and_eq_true, Bool.not_eq_true'] at h
    exact h.2
  have hrel := relParts_eq args hne hcomp
  obtain ⟨c', node', hloop, _, hfollow⟩ :=
    mkdirLoop_ok inv args c node hwfn hpn
  refine ⟨c', node', ?_, ?_, ?_, hfollow⟩
  · unfold mkdirOp
    rw [hrel, hloop]
  · intro p hp
    exact (foldl_addPath_props (chainPaths (nodeDir node) args) fs).1 p hp
  · intro q hq
    exact (foldl_addPath_props (chainPaths (nodeDir node) args) fs).2 q hq

/-- Witness for `c9_amended`: `mkdir("folder1", "folder2")` from an empty
root node. -/
theorem c9_amended_witness :
    ∃ c' node', mkdirOp nodeInvalidList freshConv ([] : FS)
        (Node.mk (['r'] : Str) ([] : Str) [] .mnil)
        [['f','1'], ['f','2']] =
      .ok ⟨fsMakedirs ([] : FS)
          (nodeDir (Node.mk (['r'] : Str) ([] : Str) [] .mnil))
          [['f','1'], ['f','2']], c', node', none⟩ ∧
      (∀ p ∈ chainPaths (nodeDir (Node.mk (['r'] : Str) ([] : Str) [] .mnil))
          [['f','1'], ['f','2']],
        (fsMakedirs ([] : FS)
          (nodeDir (Node.mk (['r'] : Str) ([] : Str) [] .mnil))
          [['f','1'], ['f','2']]).contains p = true) ∧
      (∀ q, (([] : FS)).contains q = true →
        (fsMakedirs ([] : FS)
          (nodeDir (Node.mk (['r'] : Str) ([] : Str) [] .mnil))
          [['f','1'], ['f','2']]).contains q = true) ∧
      ∀ j, j ≤ ([['f','1'], ['f','2']] : List Str).length →
        (followKeys node' (([['f','1'], ['f','2']] : List Str).take j
          |>.map (toValidPure nodeInvalidList))).isSome = true :=
  c9_amended nodeInvalidList freshConv ([] : FS)
    (Node.mk (['r'] : Str) ([] : Str) [] .mnil)
    [['f','1'], ['f','2']] (by decide) (by decide) (by decide)

theorem takeWhile_append_stop (p : Char → Bool) :
    ∀ (xs : List Char) (y : Char) (ys : List Char),
    (∀ x ∈ xs, p x = true) → p y = false →
    (xs ++ y :: ys).takeWhile p = xs := by
  intro xs
  induction xs with
  | nil =>
    intro y ys _ hy
    simp [List.takeWhile_cons, hy]
  | cons x xs2 ih =>
    intro y ys hall hy
    simp only [List.cons_append, List.takeWhile_cons,
      hall x (List.mem_cons_self x xs2), if_true]
    rw [ih y ys (fun a ha => hall a (List.mem_cons_of_mem x ha)) hy]

theorem lastComponent_pathJoin (dir n : Str)
    (h : n.contains slash = false) : lastComponent (pathJoin dir n) = n := by
  unfold lastComponent pathJoin
  rw [List.reverse_append, List.reverse_cons, List.append_assoc,
    List.singleton_append,
    takeWhile_append_stop _ n.reverse slash dir.reverse ?_ (by simp)]
  · exact List.reverse_reverse n
  · intro x hx
    have hne := (contains_false_iff n slash).mp h x (List.mem_reverse.mp hx)
    simp [hne]

theorem insertA_length_le {α : Type} (m : List (Str × α)) (k : Str)
    (v : α) : (insertA m k v).length ≤ m.length + 1 := by
  induction m with
  | nil => simp [insertA]
  | cons kv rest ih =>
    obtain ⟨k0, v0⟩ := kv
    unfold insertA
    by_cases h : k0 = k
    · rw [if_pos h]
      simp
    · rw [if_neg h]
      simp only [List.length_cons]
      omega

theorem chainLen_insertKey_le (m : Node) (k : Str) (v : Node) :
    chainLen (insertKey m k v) ≤ chainLen m + 1 := by
  induction m with
  | mk nm pp ff ss _ => simp [insertKey, chainLen]
  | mnil => simp [insertKey, chainLen]
  | mcons k0 c rest ihc ihr =>
    unfold insertKey
    by_cases h : k0 = k
    · rw [if_pos h]
      simp [chainLen]
    · rw [if_neg h]
      unfold chainLen
      omega

theorem okLen_mono (b : Option Nat) (x y : Nat) (h : x ≤ y)
    (hy : okLen b y = true) : okLen b x = true := by
  cases b with
  | none => rfl
  | some m =>
    simp [okLen] at hy ⊢
    omega

theorem okCount_succ (b : Option Nat) (x : Nat)
    (h : okCount b x = true) : okLen b (x + 1) = true := by
  cases b with
  | none => rfl
  | some m =>
    simp [okCount] at h
    simp [okLen]
    omega

theorem okLen_zero (b : Option Nat) : okLen b 0 = true := by
  cases b <;> simp [okLen]

theorem nodeName_setFiles (nd : Node) (f : List (Str × Str)) :
    nodeName (setFiles nd f) = nodeName nd := by
  cases nd <;> rfl

theorem nodeName_setSubs (nd s : Node) :
    nodeName (setSubs nd s) = nodeName nd := by
  cases nd <;> rfl

theorem depthFlag_true (d : Option Nat)
    (hdpos : ∀ dd, d = some dd → 0 < dd) : depthFlag d = true := by
  cases d with
  | none => rfl
  | some dd => exact decide_eq_true (hdpos dd rfl)

theorem boundsOkC_insertKey (d mf md : Option Nat) (m : Node) (k : Str)
    (v : Node)
    (hm : boundsOkC d mf md m = true)
    (hdpos : ∀ dd, d = some dd → 0 < dd)
    (hv : boundsOkN (decrD d) mf md v = true) :
    boundsOkC d mf md (insertKey m k v) = true := by
  have hmatch := depthFlag_true d hdpos
  induction m with
  | mk nm pp ff ss _ => exact absurd hm (by simp [boundsOkC])
  | mnil =>
    show boundsOkC d mf md (.mcons k v .mnil) = true
    unfold boundsOkC
    rw [hmatch, hv]
    rfl
  | mcons k0 c rest ihc ihr =>
    unfold boundsOkC at hm
    simp only [Bool.and_eq_true] at hm
    unfold insertKey
    by_cases h0 : k0 = k
    · rw [if_pos h0]
      unfold boundsOkC
      rw [hmatch, hv]
      simp [hm.2]
    · rw [if_neg h0]
      unfold boundsOkC
      rw [hmatch, hm.1.2, ihr hm.2]
      simp [hm.1.1]

theorem filterOkC_insertKey (inc exc : Option (Str → Bool)) (m : Node)
    (k : Str) (v : Node)
    (hm : filterOkC inc exc m = true)
    (hskip : skipName inc exc (nodeName v) = false)
    (hv : filterOkN inc exc v = true) :
    filterOkC inc exc (insertKey m k v) = true := by
  induction m with
  | mk nm pp ff ss _ => exact absurd hm (by simp [filterOkC])
  | mnil =>
    show filterOkC inc exc (.mcons k v .mnil) = true
    unfold filterOkC
    rw [hskip, hv]
    rfl
  | mcons k0 c rest ihc ihr =>
    unfold filterOkC at hm
    simp only [Bool.and_eq_true] at hm
    unfold insertKey
    by_cases h0 : k0 = k
    · rw [if_pos h0]
      unfold filterOkC
      rw [hskip, hv]
      simp [hm.2]
    · rw [if_neg h0]
      unfold filterOkC
      rw [hm.1.1, hm.1.2, ihr hm.2]
      rfl

theorem walkBEntries_fileE (inv : List Str) (inc exc : Option (Str → Bool))
    (mf md : Option Nat) (c : Converter) (d : Option Nat) (path : Str)
    (node : Node) (nf nd : Nat) (n : Str) (rest : FSE) :
    walkBEntries inv inc exc mf md c d path node nf nd (.fileE n rest) =
      (if skipName inc exc n then
        walkBEntries inv inc exc mf md c d path node nf nd rest
      else if okCount mf nf then
        match toValidName inv c n with
        | .error e => .error e
        | .ok (valid, c1) =>
          walkBEntries inv inc exc mf md c1 d path
            (setFiles node (insertA (nodeFiles node) valid
              (pathJoin path n))) (nf + 1) nd rest
      else walkBEntries inv inc exc mf md c d path node nf nd rest) := rfl

theorem walkBEntries_dirE_none (inv : List Str)
    (inc exc : Option (Str → Bool)) (mf md : Option Nat) (c : Converter)
    (path : Str) (node : Node) (nf nd : Nat) (n : Str) (sub rest : FSE) :
    walkBEntries inv inc exc mf md c none path node nf nd
        (.dirE n sub rest) =
      (if skipName inc exc n then
        walkBEntries inv inc exc mf md c none path node nf nd rest
      else if okCount md nd then
        match toValidName inv c n with
        | .error e => .error e
        | .ok (valid, c1) =>
          match walkBEntries inv inc exc mf md c1 none (pathJoin path n)
              (Node.mk n path [] .mnil) 0 0 sub with
          | .error e => .error e
          | .ok (c2, child) =>
            walkBEntries inv inc exc mf md c2 none path
              (setSubs node (insertKey (nodeSubs node) valid child))
              nf (nd + 1) rest
      else walkBEntries inv inc exc mf md c none path node nf nd rest) := rfl

theorem walkBEntries_dirE_zero (inv : List Str)
    (inc exc : Option (Str → Bool)) (mf md : Option Nat) (c : Converter)
    (path : Str) (node : Node) (nf nd : Nat) (n : Str) (sub rest : FSE) :
    walkBEntries inv inc exc mf md c (some 0) path node nf nd
        (.dirE n sub rest) =
      (if skipName inc exc n then
        walkBEntries inv inc exc mf md c (some 0) path node nf nd rest
      else if okCount md nd then
        walkBEntries inv inc exc mf md c (some 0) path node nf nd rest
      else walkBEntries inv inc exc mf md c (some 0) path node nf nd
        rest) := rfl

theorem walkBEntries_dirE_succ (inv : List Str)
    (inc exc : Option (Str → Bool)) (mf md : Option Nat) (c : Converter)
    (dd : Nat) (path : Str) (node : Node) (nf nd : Nat) (n : Str)
    (sub rest : FSE) :
    walkBEntries inv inc exc mf md c (some (dd + 1)) path node nf nd
        (.dirE n sub rest) =
      (if skipName inc exc n then
        walkBEntries inv inc exc mf md c (some (dd + 1)) path node nf nd rest
      else if okCount md nd then
        match toValidName inv c n with
        | .error e => .error e
        | .ok (valid, c1) =>
          match walkBEntries inv inc exc mf md c1 (decrD (some (dd + 1)))
              (pathJoin path n) (Node.mk n path [] .mnil) 0 0 sub with
          | .error e => .error e
          | .ok (c2, child) =>
            walkBEntries inv inc exc mf md c2 (some (dd + 1)) path
              (setSubs node (insertKey (nodeSubs node) valid child))
              nf (nd + 1) rest
      else walkBEntries inv inc exc mf md c (some (dd + 1)) path node nf nd
        rest) := rfl

theorem walkB_name (inv : List Str) (inc exc : Option (Str → Bool))
    (mf md : Option Nat) :
    ∀ (es : FSE) (c : Converter) (d : Option Nat) (path : Str) (node : Node)
      (nf nd : Nat) (c' : Converter) (node' : Node),
    walkBEntries inv inc exc mf md c d path node nf nd es = .ok (c', node') →
    nodeName node' = nodeName node ∧ isMkB node' = isMkB node := by
  intro es
  induction es with
  | nil =>
    intro c d path node nf nd c' node' hok
    obtain ⟨h1, h2⟩ := Prod.mk.inj (Except.ok.inj hok)
    rw [← h2]
    exact ⟨rfl, rfl⟩
  | fileE n rest ih =>
    intro c d path node nf nd c' node' hok
    rw [walkBEntries_fileE] at hok
    by_cases hskip : skipName inc exc n = true
    · rw [if_pos hskip] at hok
      exact ih c d path node nf nd c' node' hok
    · rw [if_neg hskip] at hok
      by_cases hcnt : okCount mf nf = true
      · rw [if_pos hcnt] at hok
        cases htv : toValidName inv c n with
        | error e => simp [htv] at hok
        | ok p =>
          obtain ⟨valid, c1⟩ := p
          simp only [htv] at hok
          have h := ih c1 d path _ (nf + 1) nd c' node' hok
          exact ⟨h.1.trans (nodeName_setFiles node _),
            h.2.trans (isMkB_setFiles node _)⟩
      · rw [if_neg hcnt] at hok
        exact ih c d path node nf nd c' node' hok
  | dirE n sub rest ihsub ihrest =>
    intro c d path node nf nd c' node' hok
    cases d with
    | none =>
      rw [walkBEntries_dirE_none] at hok
      by_cases hskip : skipName inc exc n = true
      · rw [if_pos hskip] at hok
        exact ihrest c none path node nf nd c' node' hok
      · rw [if_neg hskip] at hok
        by_cases hcnt : okCount md nd = true
        · rw [if_pos hcnt] at hok
          cases htv : toValidName inv c n with
          | error e => simp [htv] at hok
          | ok p =>
            obtain ⟨valid, c1⟩ := p
            simp only [htv] at hok
            cases hsw : walkBEntries inv inc exc mf md c1 none
                (pathJoin path n) (Node.mk n path [] .mnil) 0 0 sub with
            | error e => simp [hsw] at hok
            | ok q =>
              obtain ⟨c2, child⟩ := q
              simp only [hsw] at hok
              have h := ihrest c2 none path _ nf (nd + 1) c' node' hok
              exact ⟨h.1.trans (nodeName_setSubs node _),
                h.2.trans (isMkB_setSubs node _)⟩
        · rw [if_neg hcnt] at hok
          exact ihrest c none path node nf nd c' node' hok
    | some dd =>
      cases dd with
      | zero =>
        rw [walkBEntries_dirE_zero] at hok
        by_cases hskip : skipName inc exc n = true
        · rw [if_pos hskip] at hok
          exact ihrest c (some 0) path node nf nd c' node' hok
        · rw [if_neg hskip] at hok
          by_cases hcnt : okCount md nd = true
          · rw [if_pos hcnt] at hok
            exact ihrest c (some 0) path node nf nd c' node' hok
          · rw [if_neg hcnt] at hok
            exact ihrest c (some 0) path node nf nd c' node' hok
      | succ dd2 =>
        rw [walkBEntries_dirE_succ] at hok
        by_cases hskip : skipName inc exc n = true
        · rw [if_pos hskip] at hok
          exact ihrest c (some (dd2 + 1)) path node nf nd c' node' hok
        · rw [if_neg hskip] at hok
          by_cases hcnt : okCount md nd = true
          · rw [if_pos hcnt] at hok
            cases htv : toValidName inv c n with
            | error e => simp [htv] at hok
            | ok p =>
              obtain ⟨valid, c1⟩ := p
              simp only [htv] at hok
              cases hsw : walkBEntries inv inc exc mf md c1
                  (decrD (some (dd2 + 1))) (pathJoin path n)
                  (Node.mk n path [] .mnil) 0 0 sub with
              | error e => simp [hsw] at hok
              | ok q =>
                obtain ⟨c2, child⟩ := q
                simp only [hsw] at hok
                have h := ihrest c2 (some (dd2 + 1)) path _ nf (nd + 1)
                  c' node' hok
                exact ⟨h.1.trans (nodeName_setSubs node _),
                  h.2.trans (isMkB_setSubs node _)⟩
          · rw [if_neg hcnt] at hok
            exact ihrest c (some (dd2 + 1)) path node nf nd c' node' hok

theorem walkB_main (inv : List Str) (inc exc : Option (Str → Bool))
    (mf md : Option Nat) :
    ∀ (es : FSE) (c : Converter) (d : Option Nat) (path : Str) (node : Node)
      (nf nd : Nat) (c' : Converter) (node' : Node),
    walkBEntries inv inc exc mf md c d path node nf nd es = .ok (c', node') →
    wfFSE es = true →
    isMkB node = true →
    (nodeFiles node).length ≤ nf →
    okLen mf nf = true →
    chainLen (nodeSubs node) ≤ nd →
    okLen md nd = true →
    boundsOkC d mf md (nodeSubs node) = true →
    (∀ kv ∈ nodeFiles node, skipName inc exc (lastComponent kv.2) = false) →
    filterOkC inc exc (nodeSubs node) = true →
    boundsOkN d mf md node' = true ∧ filterOkN inc exc node' = true := by
  intro es
  induction es with
  | nil =>
    intro c d path node nf nd c' node' hok _ hmk hflen hfok hclen hcok hbc
      hfilef hfilec
    obtain ⟨h1, h2⟩ := Prod.mk.inj (Except.ok.inj hok)
    rw [← h2]
    cases node with
    | mk nm pp ff ss =>
      constructor
      · show (okLen mf ff.length && okLen md (chainLen ss) &&
          boundsOkC d mf md ss) = true
        have hbc2 : boundsOkC d mf md ss = true := hbc
        rw [okLen_mono mf ff.length nf hflen hfok,
          okLen_mono md (chainLen ss) nd hclen hcok, hbc2]
        rfl
      · show (ff.all (fun kv => !(skipName inc exc (lastComponent kv.2))) &&
          filterOkC inc exc ss) = true
        have hall : ff.all
            (fun kv => !(skipName inc exc (lastComponent kv.2))) = true := by
          rw [List.all_eq_true]
          intro kv hkv
          rw [hfilef kv hkv]
          rfl
        have hfc2 : filterOkC inc exc ss = true := hfilec
        rw [hall, hfc2]
        rfl
    | mnil => exact absurd hmk (by simp [isMkB])
    | mcons k0 ch rest0 => exact absurd hmk (by simp [isMkB])
  | fileE n rest ih =>
    intro c d path node nf nd c' node' hok hwfes hmk hflen hfok hclen hcok
      hbc hfilef hfilec
    have hwf2 : (!(n.contains slash) && wfFSE rest) = true := hwfes
    rw [Bool.and_eq_true] at hwf2
    obtain ⟨hcont, hwfrest⟩ := hwf2
    rw [walkBEntries_fileE] at hok
    by_cases hskip : skipName inc exc n = true
    · rw [if_pos hskip] at hok
      exact ih c d path node nf nd c' node' hok hwfrest hmk hflen hfok hclen
        hcok hbc hfilef hfilec
    · rw [if_neg hskip] at hok
      have hskipf : skipName inc exc n = false := by
        simpa using hskip
      by_cases hcnt : okCount mf nf = true
      · rw [if_pos hcnt] at hok
        cases htv : toValidName inv c n with
        | error e => simp [htv] at hok
        | ok p =>
          obtain ⟨valid, c1⟩ := p
          simp only [htv] at hok
          refine ih c1 d path _ (nf + 1) nd c' node' hok hwfrest ?_ ?_ ?_
            ?_ ?_ ?_ ?_ ?_
          · rw [isMkB_setFiles]
            exact hmk
          · rw [nodeFiles_setFiles node _ hmk]
            exact le_trans (insertA_length_le _ _ _)
              (Nat.succ_le_succ hflen)
          · exact okCount_succ mf nf hcnt
          · rw [nodeSubs_setFiles]
            exact hclen
          · exact hcok
          · rw [nodeSubs_setFiles]
            exact hbc
          · intro kv hkv
            rw [nodeFiles_setFiles node _ hmk] at hkv
            rcases mem_insertA _ _ _ kv hkv with hold | hnew
            · exact hfilef kv hold
            · rw [hnew]
              show skipName inc exc (lastComponent (pathJoin path n)) = false
              rw [lastComponent_pathJoin path n (by simpa using hcont)]
              exact hskipf
          · rw [nodeSubs_setFiles]
            exact hfilec
      · rw [if_neg hcnt] at hok
        exact ih c d path node nf nd c' node' hok hwfrest hmk hflen hfok
          hclen hcok hbc hfilef hfilec
  | dirE n sub rest ihsub ihrest =>
    intro c d path node nf nd c' node' hok hwfes hmk hflen hfok hclen hcok
      hbc hfilef hfilec
    have hwf2 : (!(n.contains slash) && wfFSE sub && wfFSE rest) = true :=
      hwfes
    simp only [Bool.and_eq_true] at hwf2
    obtain ⟨⟨hcont, hwfsub⟩, hwfrest⟩ := hwf2
    cases d with
    | none =>
      rw [walkBEntries_dirE_none] at hok
      by_cases hskip : skipName inc exc n = true
      · rw [if_pos hskip] at hok
        exact ihrest c none path node nf nd c' node' hok hwfrest hmk hflen
          hfok hclen hcok hbc hfilef hfilec
      · rw [if_neg hskip] at hok
        have hskipf : skipName inc exc n = false := by
          simpa using hskip
        by_cases hcnt : okCount md nd = true
        · rw [if_pos hcnt] at hok
          cases htv : toValidName inv c n with
          | error e => simp [htv] at hok
          | ok p =>
            obtain ⟨valid, c1⟩ := p
            simp only [htv] at hok
            cases hsw : walkBEntries inv inc exc mf md c1 none
                (pathJoin path n) (Node.mk n path [] .mnil) 0 0 sub with
            | error e => simp [hsw] at hok
            | ok q =>
              obtain ⟨c2, child⟩ := q
              simp only [hsw] at hok
              have hchild := ihsub c1 none (pathJoin path n)
                (Node.mk n path [] .mnil) 0 0 c2 child hsw hwfsub rfl
                (Nat.le_refl 0) (okLen_zero mf) (Nat.le_refl 0)
                (okLen_zero md) rfl (fun kv hkv => absurd hkv (List.not_mem_nil kv)) rfl
              have hname := walkB_name inv inc exc mf md sub c1 none
                (pathJoin path n) (Node.mk n path [] .mnil) 0 0 c2 child hsw
              refine ihrest c2 none path _ nf (nd + 1) c' node' hok hwfrest
                ?_ ?_ ?_ ?_ ?_ ?_ ?_ ?_
              · rw [isMkB_setSubs]
                exact hmk
              · rw [nodeFiles_setSubs]
                exact hflen
              · exact hfok
              · rw [nodeSubs_setSubs node _ hmk]
                exact le_trans (chainLen_insertKey_le _ _ _)
                  (Nat.succ_le_succ hclen)
              · exact okCount_succ md nd hcnt
              · rw [nodeSubs_setSubs node _ hmk]
                refine boundsOkC_insertKey none mf md _ valid child hbc
                  (fun dd2 h => Option.noConfusion h) ?_
                exact hchild.1
              · intro kv hkv
                rw [nodeFiles_setSubs] at hkv
                exact hfilef kv hkv
              · rw [nodeSubs_setSubs node _ hmk]
                refine filterOkC_insertKey inc exc _ valid child hfilec ?_
                  hchild.2
                rw [hname.1]
                exact hskipf
        · rw [if_neg hcnt] at hok
          exact ihrest c none path node nf nd c' node' hok hwfrest hmk hflen
            hfok hclen hcok hbc hfilef hfilec
    | some dd =>
      cases dd with
      | zero =>
        rw [walkBEntries_dirE_zero] at hok
        by_cases hskip : skipName inc exc n = true
        · rw [if_pos hskip] at hok
          exact ihrest c (some 0) path node nf nd c' node' hok hwfrest hmk
            hflen hfok hclen hcok hbc hfilef hfilec
        · rw [if_neg hskip] at hok
          by_cases hcnt : okCount md nd = true
          · rw [if_pos hcnt] at hok
            exact ihrest c (some 0) path node nf nd c' node' hok hwfrest hmk
              hflen hfok hclen hcok hbc hfilef hfilec
          · rw [if_neg hcnt] at hok
            exact ihrest c (some 0) path node nf nd c' node' hok hwfrest hmk
              hflen hfok hclen hcok hbc hfilef hfilec
      | succ dd2 =>
        rw [walkBEntries_dirE_succ] at hok
        by_cases hskip : skipName inc exc n = true
        · rw [if_pos hskip] at hok
          exact ihrest c (some (dd2 + 1)) path node nf nd c' node' hok
            hwfrest hmk hflen hfok hclen hcok hbc hfilef hfilec
        · rw [if_neg hskip] at hok
          have hskipf : skipName inc exc n = false := by
            simpa using hskip
          by_cases hcnt : okCount md nd = true
          · rw [if_pos hcnt] at hok
            cases htv : toValidName inv c n with
            | error e => simp [htv] at hok
            | ok p =>
              obtain ⟨valid, c1⟩ := p
              simp only [htv] at hok
              cases hsw : walkBEntries inv inc exc mf md c1
                  (decrD (some (dd2 + 1))) (pathJoin path n)
                  (Node.mk n path [] .mnil) 0 0 sub with
              | error e => simp [hsw] at hok
              | ok q =>
                obtain ⟨c2, child⟩ := q
                simp only [hsw] at hok
                have hchild := ihsub c1 (decrD (some (dd2 + 1)))
                  (pathJoin path n) (Node.mk n path [] .mnil) 0 0 c2 child
                  hsw hwfsub rfl (Nat.le_refl 0) (okLen_zero mf)
                  (Nat.le_refl 0) (okLen_zero md) rfl
                  (fun kv hkv => absurd hkv (List.not_mem_nil kv)) rfl
                have hname := walkB_name inv inc exc mf md sub c1
                  (decrD (some (dd2 + 1))) (pathJoin path n)
                  (Node.mk n path [] .mnil) 0 0 c2 child hsw
                refine ihrest c2 (some (dd2 + 1)) path _ nf (nd + 1) c'
                  node' hok hwfrest ?_ ?_ ?_ ?_ ?_ ?_ ?_ ?_
                · rw [isMkB_setSubs]
                  exact hmk
                · rw [nodeFiles_setSubs]
                  exact hflen
                · exact hfok
                · rw [nodeSubs_setSubs node _ hmk]
                  exact le_trans (chainLen_insertKey_le _ _ _)
                    (Nat.succ_le_succ hclen)
                · exact okCount_succ md nd hcnt
                · rw [nodeSubs_setSubs node _ hmk]
                  refine boundsOkC_insertKey (some (dd2 + 1)) mf md _ valid
                    child hbc ?_ ?_
                  · intro dd3 h
                    rw [← Option.some.inj h]
                    exact Nat.succ_pos dd2
                  · exact hchild.1
                · intro kv hkv
                  rw [nodeFiles_setSubs] at hkv
                  exact hfilef kv hkv
                · rw [nodeSubs_setSubs node _ hmk]
                  refine filterOkC_insertKey inc exc _ valid child hfilec ?_
                    hchild.2
                  rw [hname.1]
                  exact hskipf
          · rw [if_neg hcnt] at hok
            exact ihrest c (some (dd2 + 1)) path node nf nd c' node' hok
              hwfrest hmk hflen hfok hclen hcok hbc hfilef hfilec

/-- C4: PathNavigator construction accepts optional traversal bounds
(maximum depth, maximum files per directory, maximum subfolders per
directory) and optional include/exclude name filters, and the walk that
populates the tree honors them during the walk itself: every successful
bounded walk from a fresh root node over a well-formed entry tree produces
a tree in which every directory level respects the depth budget and the
per-directory file and subfolder caps, and every tracked file and
subfolder passed the include/exclude filters. -/
theorem c4_theorem (inv : List Str) (inc exc : Option (Str → Bool))
    (mf md d : Option Nat) (es : FSE) (name ppath wpath : Str)
    (c c' : Converter) (node' : Node)
    (hok : walkBEntries inv inc exc mf md c d wpath
      (Node.mk name ppath [] .mnil) 0 0 es = .ok (c', node'))
    (hwf : wfFSE es = true) :
    boundsOkN d mf md node' = true ∧ filterOkN inc exc node' = true :=
  walkB_main inv inc exc mf md es c d wpath (Node.mk name ppath [] .mnil)
    0 0 c' node' hok hwf rfl (Nat.le_refl 0) (okLen_zero mf)
    (Nat.le_refl 0) (okLen_zero md) rfl
    (fun kv hkv => absurd hkv (List.not_mem_nil kv)) rfl

theorem c4_theorem_witness :
    walkBEntries [] none c4Exc (some 1) (some 2) freshConv (some 1)
      (['/','r'] : Str) c4Root 0 0 c4Es =
        .ok (c4OutPair.1, c4OutPair.2) ∧
    wfFSE c4Es = true ∧
    boundsOkN (some 1) (some 1) (some 2) c4OutPair.2 = true ∧
    filterOkN none c4Exc c4OutPair.2 = true :=
  ⟨rfl, rfl,
    c4_theorem [] none c4Exc (some 1) (some 2) (some 1) c4Es
      (['r'] : Str) ([] : Str) (['/','r'] : Str) freshConv c4OutPair.1
      c4OutPair.2 rfl rfl⟩

end PathNav
